import Mathlib

/-!
# Verification of the NFA-to-DFA conversion engine

Shallow embedding of `NFAConverter` (src/app/static/js/canvas/draggable_canvas.js,
second document: the converter module).  The `FSA` collaborator (`fsa.js`) is not
part of the sources, so its operations are modelled from the specification's
collaborator contract (section 4.1 of the spec); each such definition is marked
"Modelled from the spec".

Conventions of the embedding:
* JavaScript `undefined` is `Option.none`; fallible code (property access on
  `undefined`, thrown errors) is embedded in the `Option` monad, with `none`
  standing for a crash.
* JavaScript objects used as maps become association lists, JS arrays become
  `List`.
* The converter's `steps` history array is stored most-recent-first (JS pushes
  and pops at the end; here we cons and uncons at the head, which is the same
  stack discipline).
-/

set_option maxRecDepth 10000

namespace NFAConv

/-- Helper of `dedupFirst`: drop the elements already seen, keeping first
    occurrences. -/
def dedupFirstAux (seen : List String) : List String → List String
  | [] => []
  | x :: xs =>
    if seen.contains x then dedupFirstAux seen xs
    else x :: dedupFirstAux (seen ++ [x]) xs

/-- Remove duplicates from a list keeping the first occurrence of each element,
    as the JavaScript idiom `[...new Set(xs)]` does. -/
def dedupFirst (l : List String) : List String := dedupFirstAux [] l

/-- String comparison used to model JavaScript's default `Array.prototype.sort`
    (lexicographic over code units). -/
def strLe (a b : String) : Bool := compare a b ≠ Ordering.gt

/-- Insert a string into a sorted list (helper of `sortStr`). -/
def insSorted (x : String) : List String → List String
  | [] => [x]
  | y :: ys => if strLe x y then x :: y :: ys else y :: insSorted x ys

/-- Insertion sort modelling JavaScript's default `Array.prototype.sort()`
    on string arrays. -/
def sortStr (l : List String) : List String := l.foldr insSorted []

/-- Helper of `splitComma`: walk the characters, cutting at every comma. -/
def splitCommaAux : List Char → List Char → List String
  | [], acc => [String.mk acc]
  | c :: cs, acc =>
    if c = ',' then String.mk acc :: splitCommaAux cs []
    else splitCommaAux cs (acc ++ [c])

/-- Split a string at commas, as the JavaScript `label.split(',')` does
    (`""` yields `[""]`, a trailing comma yields a trailing `""`). -/
def splitComma (s : String) : List String := splitCommaAux s.data []

/-- Modelled from the spec: the NFA side of the `FSA` collaborator contract
    (section 4.1).  `fsa.js` is not among the sources, so the three query
    operations the converter uses are carried as data: `powerset` is the value
    returned by `getPowersetOfStates()` (every subset of the NFA's states, the
    empty subset conventionally represented as `["Ø"]`), `epsTable` backs
    `getEpsilonClosureStates` and `reachTable` backs `getReachableStates`. -/
structure NFA where
  alphabet : List String
  startState : String
  acceptStates : List String
  powerset : List (List String)
  epsTable : List (String × List String)
  reachTable : List ((String × String) × List String)
deriving DecidableEq, Repr

/-- Modelled from the spec: `getEpsilonClosureStates(state)` — the set of states
    reachable from `state` by epsilon transitions, including `state` itself. -/
def NFA.getEpsilonClosureStates (n : NFA) (st : String) : List String :=
  ((n.epsTable.lookup st).getD [st])

/-- Modelled from the spec: `getReachableStates(state, symbol)` — the set of NFA
    states reachable from `state` consuming exactly one `symbol`. -/
def NFA.getReachableStates (n : NFA) (st sym : String) : List String :=
  ((n.reachTable.lookup (st, sym)).getD [])

/-- The DFA value built by the converter.  The transition table is an
    association list state ↦ (symbol ↦ entry); an entry of `none` is a
    transition that `initializeDFA` created as `undefined` and that has not yet
    been filled in. -/
structure DFA where
  states : List String
  alphabet : List String
  transitions : List (String × List (String × Option (List String)))
  startState : String
  acceptStates : List String
deriving DecidableEq, Repr

/-- Modelled from the spec: `removeState(label)` removes the state from the
    state sequence and from the accept states and drops its transition row; it
    does not rewrite other states' transitions. -/
def DFA.removeState (d : DFA) (label : String) : DFA :=
  { d with
    states := d.states.filter (fun s => s ≠ label)
    acceptStates := d.acceptStates.filter (fun s => s ≠ label)
    transitions := d.transitions.filter (fun r => r.1 ≠ label) }

/-- Modelled from the spec: `mergeStates(a, b)` collapses the two states into
    one representative (here the first argument survives); every transition that
    pointed at either resolves to the merged label, and the merged state is an
    accept state iff either input was. -/
def DFA.mergeStates (d : DFA) (a b : String) : DFA :=
  { d with
    states := d.states.filter (fun s => s ≠ b)
    acceptStates :=
      if d.acceptStates.contains b ∧ ¬ d.acceptStates.contains a then
        d.acceptStates.filter (fun s => s ≠ b) ++ [a]
      else
        d.acceptStates.filter (fun s => s ≠ b)
    transitions :=
      (d.transitions.filter (fun r => r.1 ≠ b)).map (fun r =>
        (r.1, r.2.map (fun e =>
          (e.1, e.2.map (fun tgt => tgt.map (fun x => if x = b then a else x)))))) }

/-- Read `transitions[st][sym]`: `none` when the row or the entry is absent or
    the entry is the stored `undefined` (any further use crashes in JS). -/
def transLookup (d : DFA) (st sym : String) : Option (List String) :=
  match d.transitions.lookup st with
  | none => none
  | some row =>
    match row.lookup sym with
    | none => none
    | some e => e

/-- Write `row[sym] = v` in a transition row (JS property assignment: replace
    the entry if the key exists, append it otherwise). -/
def setRow (row : List (String × Option (List String))) (sym : String)
    (v : List String) : List (String × Option (List String)) :=
  if row.any (fun e => e.1 = sym) then
    row.map (fun e => if e.1 = sym then (e.1, some v) else e)
  else
    row ++ [(sym, some v)]

/-- Write `transitions[st][sym] = v`; crashes (`none`) when the row `st` does
    not exist, as the JS property access on `undefined` would. -/
def setTrans (d : DFA) (st sym : String) (v : List String) : Option DFA :=
  if d.transitions.any (fun r => r.1 = st) then
    some { d with
      transitions := d.transitions.map (fun r =>
        if r.1 = st then (r.1, setRow r.2 sym v) else r) }
  else
    none

/-- Every `(state, symbol)` entry of the transition table is defined. -/
def allDefined (d : DFA) : Prop :=
  ∀ st ∈ d.states, ∀ sym ∈ d.alphabet, (transLookup d st sym).isSome

instance (d : DFA) : Decidable (allDefined d) := by
  unfold allDefined; infer_instance

theorem removeState_states_length_le (d : DFA) (x : String) :
    (d.removeState x).states.length ≤ d.states.length :=
  List.length_filter_le _ _

theorem foldl_removeState_length_le (l : List String) (d : DFA) :
    (l.foldl DFA.removeState d).states.length ≤ d.states.length := by
  induction l generalizing d with
  | nil => exact Nat.le_refl _
  | cons x xs ih =>
    exact Nat.le_trans (ih (d.removeState x)) (removeState_states_length_le d x)

theorem removeState_states_length_lt (d : DFA) (x : String) (hx : x ∈ d.states) :
    (d.removeState x).states.length < d.states.length := by
  simp only [DFA.removeState]
  refine List.length_filter_lt_length_iff_exists.mpr ?_
  exact ⟨x, hx, by simp⟩

/-- Destinations of one state's transitions over the given symbols (the inner
    `for symbol` loop of `getUnreachableStates`); crashes (`none`) when some
    transition entry is still `undefined`, since the JS code calls `.join` on
    it. -/
def destRow (d : DFA) (st : String) : List String → Option (List String)
  | [] => some []
  | sym :: rest => do
    let l ← transLookup d st sym
    let ns ← destRow d st rest
    pure (String.intercalate "," l :: ns)

/-- The outer `for state` loop of the `nodesWithIncomingEdges` collection:
    destinations of every state's transitions, self-loops excluded. -/
def destAll (d : DFA) : List String → Option (List String)
  | [] => some []
  | st :: rest => do
    let ns ← destRow d st d.alphabet
    let more ← destAll d rest
    pure (ns.filter (fun node => node ≠ st) ++ more)

/-- Collect every transition destination of the scratch DFA excluding
    self-loops (the `nodesWithIncomingEdges` array of
    `getUnreachableStates`). -/
def incomingNodes (d : DFA) : Option (List String) := destAll d d.states

/-- One pass of the unreachable-state filter: the states missing from the
    incoming-destinations set, the start state excluded. -/
def noIncoming (d : DFA) : Option (List String) :=
  (incomingNodes d).map (fun inc =>
    d.states.filter (fun s => ¬ inc.contains s ∧ s ≠ d.startState))

theorem foldl_removeState_length_lt (l : List String) (d : DFA) (hne : l ≠ [])
    (hsub : ∀ x ∈ l, x ∈ d.states) :
    (l.foldl DFA.removeState d).states.length < d.states.length := by
  match l, hne with
  | x :: xs, _ =>
    calc ((x :: xs).foldl DFA.removeState d).states.length
        = (xs.foldl DFA.removeState (d.removeState x)).states.length := rfl
      _ ≤ (d.removeState x).states.length := foldl_removeState_length_le _ _
      _ < d.states.length := removeState_states_length_lt d x (hsub x (by simp))

theorem noIncoming_mem {d : DFA} {nwe : List String} (h : noIncoming d = some nwe) :
    ∀ x ∈ nwe, x ∈ d.states := by
  intro x hx
  simp only [noIncoming, Option.map_eq_some'] at h
  obtain ⟨inc, _, rfl⟩ := h
  exact List.mem_of_mem_filter hx

/-- Recursion of `getUnreachableStates`, made structural with a fuel parameter;
    the fuel is an embedding artifact: the scratch copy loses at least one
    state per round, so any fuel above the state count behaves like the
    unbounded JS recursion (see `unreachAux_fuel_irrelevant`). -/
def unreachAux : Nat → DFA → List String → Option (List String)
  | 0, _, _ => none
  | fuel + 1, d, list =>
    match noIncoming d with
    | none => none
    | some nwe =>
      if nwe = [] then
        some (dedupFirst list)
      else
        match unreachAux fuel (nwe.foldl DFA.removeState d) (list ++ nwe) with
        | none => none
        | some l => some (dedupFirst l)

/-- Embedding of `NFAConverter.getUnreachableStates(tempDFA, list)`: repeat the
    one-pass filter against the shrinking scratch copy, concatenating each
    batch onto the accumulator, and finally strip duplicates as
    `[...new Set(list)]` does. -/
def getUnreachableStates (d : DFA) (list : List String) : Option (List String) :=
  unreachAux (d.states.length + 1) d list

theorem unreachAux_fuel_irrelevant :
    ∀ (fuel₁ fuel₂ : Nat) (d : DFA) (list : List String),
      d.states.length < fuel₁ → d.states.length < fuel₂ →
      unreachAux fuel₁ d list = unreachAux fuel₂ d list := by
  intro fuel₁
  induction fuel₁ with
  | zero => intro fuel₂ d list h1; omega
  | succ f1 ih =>
    intro fuel₂ d list h1 h2
    match fuel₂, h2 with
    | f2 + 1, h2 =>
      simp only [unreachAux]
      match hno : noIncoming d with
      | none => rfl
      | some nwe =>
        by_cases hne : nwe = []
        · simp [hne]
        · simp only [if_neg hne]
          have hlt := foldl_removeState_length_lt nwe d hne (noIncoming_mem hno)
          rw [ih f2 (nwe.foldl DFA.removeState d) (list ++ nwe)
            (by omega) (by omega)]

/-- Read `transitions[st][sym][0]` as an `Option`: the outer `Option` is the
    crash on an `undefined` entry, the inner one is `[0]` on a possibly empty
    array (JS yields `undefined`, which compares unequal to every state). -/
def rawTarget (d : DFA) (st sym : String) : Option (Option String) :=
  (transLookup d st sym).map List.head?

/-- The accept-parity guard of `getRedundantStates`: both states accept or
    both do not. -/
def parity (d : DFA) (s1 s2 : String) : Bool :=
  (d.acceptStates.contains s1 ∧ d.acceptStates.contains s2) ∨
    (¬ d.acceptStates.contains s1 ∧ ¬ d.acceptStates.contains s2)

/-- One symbol of the redundancy check: the condition inside the `for symbol`
    loop that sets `redundant = false`, short-circuiting exactly as the JS
    `||` does (the second read happens only when the first disjunct is
    false). -/
def pairSymbolBad (d : DFA) (s1 s2 sym : String) : Option Bool :=
  match rawTarget d s1 sym with
  | none => none
  | some a =>
    if a ≠ some s1 ∧ a ≠ some s2 then some true
    else
      match rawTarget d s2 sym with
      | none => none
      | some b => some (b ≠ some s2 ∧ b ≠ some s1)

/-- The `for symbol` loop of `getRedundantStates`, threading the `redundant`
    flag over the remaining symbols (the JS loop has no break: every symbol is
    examined). -/
def redundantFlagAux (d : DFA) (s1 s2 : String) : List String → Bool → Option Bool
  | [], acc => some acc
  | sym :: rest, acc =>
    match pairSymbolBad d s1 s2 sym with
    | none => none
    | some bad => redundantFlagAux d s1 s2 rest (acc && !bad)

/-- The `redundant` flag after the `for symbol` loop of `getRedundantStates`:
    starts `true` and is cleared by any bad symbol. -/
def redundantFlag (d : DFA) (s1 s2 : String) : Option Bool :=
  redundantFlagAux d s1 s2 d.alphabet true

/-- The whole per-pair test of `getRedundantStates`: accept parity, then the
    symbol loop. -/
def pairIsRedundant (d : DFA) (s1 s2 : String) : Option Bool :=
  if parity d s1 s2 then redundantFlag d s1 s2 else some false

/-- The inner `for s2` loop of `getRedundantStates`, scanning
    `tempDFA.states.filter(e => e !== s1)` for the first partner that passes
    the redundancy test. -/
def findInner (d : DFA) (s1 : String) : List String → Option (Option String)
  | [] => some none
  | s2 :: rest =>
    if parity d s1 s2 then
      match redundantFlag d s1 s2 with
      | none => none
      | some true => some (some s2)
      | some false => findInner d s1 rest
    else
      findInner d s1 rest

/-- The outer `for s1` loop of `getRedundantStates`: the first qualifying
    ordered pair in scan order, if any. -/
def findPairAux (d : DFA) : List String → Option (Option (String × String))
  | [] => some none
  | s1 :: rest =>
    match findInner d s1 (d.states.filter (fun e => e ≠ s1)) with
    | none => none
    | some (some s2) => some (some (s1, s2))
    | some none => findPairAux d rest

/-- The pair-search pass of `getRedundantStates` over the scratch DFA. -/
def findRedundantPair (d : DFA) : Option (Option (String × String)) :=
  findPairAux d d.states

theorem findInner_mem {d : DFA} {s1 : String} {l : List String} {s2 : String}
    (h : findInner d s1 l = some (some s2)) : s2 ∈ l := by
  induction l with
  | nil => simp [findInner] at h
  | cons y ys ih =>
    simp only [findInner] at h
    by_cases hp : parity d s1 y
    · simp only [hp, if_true] at h
      match hf : redundantFlag d s1 y with
      | none => rw [hf] at h; exact absurd h (by simp)
      | some true =>
        rw [hf] at h
        simp only [Option.some.injEq] at h
        exact h ▸ List.mem_cons_self y ys
      | some false =>
        rw [hf] at h
        exact List.mem_cons_of_mem y (ih h)
    · simp only [hp, if_false] at h
      exact List.mem_cons_of_mem y (ih h)

theorem findPairAux_mem {d : DFA} {l : List String} {p : String × String}
    (h : findPairAux d l = some (some p)) : p.2 ∈ d.states ∧ p.2 ≠ p.1 := by
  induction l with
  | nil => simp [findPairAux] at h
  | cons y ys ih =>
    simp only [findPairAux] at h
    match hf : findInner d y (d.states.filter (fun e => e ≠ y)) with
    | none => rw [hf] at h; exact absurd h (by simp)
    | some (some s2) =>
      rw [hf] at h
      simp only [Option.some.injEq] at h
      have hm := findInner_mem hf
      have := List.of_mem_filter hm
      subst h
      exact ⟨List.mem_of_mem_filter hm, by simpa using this⟩
    | some none =>
      rw [hf] at h
      exact ih h

theorem mergeStates_states_length_lt (d : DFA) (a b : String) (hb : b ∈ d.states) :
    (d.mergeStates a b).states.length < d.states.length := by
  simp only [DFA.mergeStates]
  refine List.length_filter_lt_length_iff_exists.mpr ?_
  exact ⟨b, hb, by simp⟩

/-- Recursion of `getRedundantStates`, made structural with a fuel parameter;
    as with `unreachAux`, each merge removes one state, so any fuel above the
    state count behaves like the unbounded JS recursion
    (see `redundAux_fuel_irrelevant`). -/
def redundAux : Nat → DFA → List (String × String) → Option (List (String × String))
  | 0, _, _ => none
  | fuel + 1, d, list =>
    match findRedundantPair d with
    | none => none
    | some none => some list
    | some (some p) =>
      redundAux fuel (d.mergeStates p.1 p.2) (list ++ [p])

/-- Embedding of `NFAConverter.getRedundantStates(tempDFA, list)`: find the
    first qualifying pair in scan order, merge it on the scratch copy, record
    it at the end of the accumulating list, and restart on the reduced
    automaton. -/
def getRedundantStates (d : DFA) (list : List (String × String)) :
    Option (List (String × String)) :=
  redundAux (d.states.length + 1) d list

theorem redundAux_fuel_irrelevant :
    ∀ (fuel₁ fuel₂ : Nat) (d : DFA) (list : List (String × String)),
      d.states.length < fuel₁ → d.states.length < fuel₂ →
      redundAux fuel₁ d list = redundAux fuel₂ d list := by
  intro fuel₁
  induction fuel₁ with
  | zero => intro fuel₂ d list h1; omega
  | succ f1 ih =>
    intro fuel₂ d list h1 h2
    match fuel₂, h2 with
    | f2 + 1, h2 =>
      simp only [redundAux]
      match hfp : findRedundantPair d with
      | none => rfl
      | some none => rfl
      | some (some p) =>
        have hlt := mergeStates_states_length_lt d p.1 p.2 (findPairAux_mem hfp).1
        exact ih f2 (d.mergeStates p.1 p.2) (list ++ [p]) (by omega) (by omega)

/-- Step descriptors returned by the converter (the `type` tag plus the data
    fields each step records; the human-readable `desc` string is omitted).
    The `initialize` tag is rendered here as `Step.initDFA`. -/
inductive Step where
  | initDFA : Step
  | addTransition (fromState toState symbol : String)
      (prevStateIndex prevAlphabetIndex : Nat) : Step
  | deleteState (state : String)
      (transitions : Option (List (String × Option (List String)))) : Step
  | mergePair (states : String × String) : Step
deriving DecidableEq, Repr

/-- The result of `getNextStep`: one of the four action tags, or `none` for
    the JS `undefined` fall-through (the `done` phase). -/
inductive StepKind where
  | initDFA : StepKind
  | addTransition : StepKind
  | deleteState : StepKind
  | mergePair : StepKind
deriving DecidableEq, Repr

/-- The converter session: the fields set up by the `NFAConverter` constructor.
    `steps` is kept most-recent-first (see the header comment). -/
structure Session where
  nfa : NFA
  dfa : Option DFA
  steps : List (DFA × Step)
  state_index : Nat
  alphabet_index : Nat
  unreachableStates : Option (List String)
  redundantStates : Option (List (String × String))
deriving DecidableEq, Repr

/-- The `NFAConverter(nfa)` constructor. -/
def initialSession (n : NFA) : Session :=
  { nfa := n, dfa := none, steps := [], state_index := 0, alphabet_index := 0,
    unreachableStates := none, redundantStates := none }

/-- Embedding of `NFAConverter.getNextStep()`.  The function both returns the
    tag of the next step and caches the two pending queues the first time it
    computes them, so it is state-passing here; the outer `Option` is a crash
    inside `getUnreachableStates`/`getRedundantStates`. -/
def getNextStep (s : Session) : Option (Session × Option StepKind) :=
  match s.dfa with
  | none => some (s, some StepKind.initDFA)
  | some d =>
    if s.state_index < d.states.length then
      some (s, some StepKind.addTransition)
    else
      match s.unreachableStates with
      | some u =>
        if u.length > 0 then some (s, some StepKind.deleteState)
        else
          match s.redundantStates with
          | some r =>
            if r.length > 0 then some (s, some StepKind.mergePair)
            else some (s, none)
          | none =>
            match getRedundantStates d [] with
            | none => none
            | some r =>
              let s' := { s with redundantStates := some r }
              if r.length > 0 then some (s', some StepKind.mergePair)
              else some (s', none)
      | none =>
        match getUnreachableStates d [] with
        | none => none
        | some u =>
          let s₁ := { s with unreachableStates := some u }
          if u.length > 0 then some (s₁, some StepKind.deleteState)
          else
            match s₁.redundantStates with
            | some r =>
              if r.length > 0 then some (s₁, some StepKind.mergePair)
              else some (s₁, none)
            | none =>
              match getRedundantStates d [] with
              | none => none
              | some r =>
                let s₂ := { s₁ with redundantStates := some r }
                if r.length > 0 then some (s₂, some StepKind.mergePair)
                else some (s₂, none)

/-- Embedding of `NFAConverter.initializeDFA()`: build the powerset DFA, check
    the start-state invariant (`none` is the thrown `Error`), store it and log
    the step. -/
def initializeDFA (s : Session) : Option (Session × (DFA × Step)) :=
  let n := s.nfa
  let states := n.powerset.map (String.intercalate ",")
  let transitions := states.map (fun st =>
    (st, n.alphabet.map (fun sym => (sym, (none : Option (List String))))))
  let startState :=
    String.intercalate "," (sortStr (dedupFirst (n.getEpsilonClosureStates n.startState)))
  let acceptStates := (n.powerset.filter (fun e =>
    n.acceptStates.any (fun a => e.contains a))).map (String.intercalate ",")
  if states.contains startState then
    let d : DFA := { states := states, alphabet := n.alphabet,
                     transitions := transitions, startState := startState,
                     acceptStates := acceptStates }
    let step := (d, Step.initDFA)
    some ({ s with dfa := some d, steps := step :: s.steps }, step)
  else
    none

/-- Embedding of `NFAConverter.addNextTransition(prevStateIndex,
    prevAlphabetIndex)`.  Out-of-range state/symbol access and a missing
    transition row crash (`none`). -/
def addNextTransition (s : Session) (prevStateIndex prevAlphabetIndex : Nat) :
    Option (Session × (DFA × Step)) :=
  match s.dfa with
  | none => none
  | some d =>
    match d.states.get? s.state_index with
    | none => none
    | some state =>
      match d.alphabet.get? s.alphabet_index with
      | none => none
      | some symbol =>
        match
          (if s.state_index = 0 then
            setTrans d "Ø" symbol ["Ø"]
          else
            let reachableStates := (splitComma state).foldl
              (fun acc c => acc ++ s.nfa.getReachableStates c symbol) []
            let reachableStates := sortStr (dedupFirst reachableStates)
            let reachableStates :=
              if reachableStates.any (fun e => e ≠ "Ø") then
                reachableStates.filter (fun e => e ≠ "Ø")
              else
                ["Ø"]
            setTrans d state symbol [String.intercalate "," reachableStates]) with
        | none => none
        | some d₂ =>
          match transLookup d₂ state symbol with
          | none => none
          | some entry =>
            let toState := String.intercalate "," entry
            let step := (d₂, Step.addTransition state toState symbol
              prevStateIndex prevAlphabetIndex)
            some ({ s with dfa := some d₂, alphabet_index := s.alphabet_index + 1,
                           steps := step :: s.steps }, step)

/-- Embedding of `NFAConverter.deleteNextUnreachableState()`: shift the head of
    the unreachable queue, log the step with a pre-removal snapshot and the
    removed state's transition row, then remove the state from `working`. -/
def deleteNextUnreachableState (s : Session) : Option (Session × (DFA × Step)) :=
  match s.unreachableStates with
  | none => none
  | some [] => none
  | some (stateToDelete :: rest) =>
    match s.dfa with
    | none => none
    | some d =>
      let step := (d, Step.deleteState stateToDelete (d.transitions.lookup stateToDelete))
      some ({ s with unreachableStates := some rest,
                     dfa := some (d.removeState stateToDelete),
                     steps := step :: s.steps }, step)

/-- Embedding of `NFAConverter.mergeNextRedundantStates()`: shift the head of
    the redundant queue, log the step with a pre-merge snapshot, then merge the
    pair on `working`. -/
def mergeNextRedundantStates (s : Session) : Option (Session × (DFA × Step)) :=
  match s.redundantStates with
  | none => none
  | some [] => none
  | some (pairToMerge :: rest) =>
    match s.dfa with
    | none => none
    | some d =>
      let step := (d, Step.mergePair pairToMerge)
      some ({ s with redundantStates := some rest,
                     dfa := some (d.mergeStates pairToMerge.1 pairToMerge.2),
                     steps := step :: s.steps }, step)

/-- The cursor adjustment at the top of `stepForward()`: when a DFA exists and
    the symbol cursor has reached the alphabet length, advance the state cursor
    and reset the symbol cursor. -/
def adjustCursors (s : Session) : Session :=
  match s.dfa with
  | none => s
  | some d =>
    if s.alphabet_index = d.alphabet.length then
      { s with state_index := s.state_index + 1, alphabet_index := 0 }
    else
      s

/-- Embedding of `NFAConverter.stepForward()`: capture the pre-step cursors,
    adjust the cursors, evaluate the phase rule and perform one action.  The
    result component is `none` for the `[undefined, undefined]` return in the
    `done` phase. -/
def stepForward (s : Session) : Option (Session × Option (DFA × Step)) :=
  let prevStateIndex := s.state_index
  let prevAlphabetIndex := s.alphabet_index
  let sa := adjustCursors s
  match getNextStep sa with
  | none => none
  | some (s₁, kind) =>
    match kind with
    | some StepKind.initDFA => (initializeDFA s₁).map (fun p => (p.1, some p.2))
    | some StepKind.addTransition =>
      (addNextTransition s₁ prevStateIndex prevAlphabetIndex).map (fun p => (p.1, some p.2))
    | some StepKind.deleteState =>
      (deleteNextUnreachableState s₁).map (fun p => (p.1, some p.2))
    | some StepKind.mergePair =>
      (mergeNextRedundantStates s₁).map (fun p => (p.1, some p.2))
    | none => some (s₁, none)

/-- Embedding of `NFAConverter.stepBackward()`: pop the most recent history
    entry, reverse the bookkeeping according to its tag, and restore `working`
    from the popped snapshot (except for the `initialize` tag, which resets
    `working` to absent).  The result component is `none` for the bare `return`
    on an empty history; re-prepending onto an uncomputed (`undefined`) queue
    crashes (`none`), as `unshift` on `undefined` would. -/
def stepBackward (s : Session) : Option (Session × Option (DFA × Step)) :=
  match s.steps with
  | [] => some (s, none)
  | (prevDFA, prevStep) :: rest =>
    match prevStep with
    | Step.initDFA =>
      some ({ s with dfa := none, steps := [], state_index := 0,
                     alphabet_index := 0, unreachableStates := none },
            some (prevDFA, prevStep))
    | Step.addTransition _ _ _ psi pai =>
      some ({ s with dfa := some prevDFA, steps := rest,
                     state_index := psi, alphabet_index := pai },
            some (prevDFA, prevStep))
    | Step.deleteState st _ =>
      match s.unreachableStates with
      | none => none
      | some u =>
        some ({ s with dfa := some prevDFA, steps := rest,
                       unreachableStates := some (st :: u) },
              some (prevDFA, prevStep))
    | Step.mergePair p =>
      match s.redundantStates with
      | none => none
      | some r =>
        some ({ s with dfa := some prevDFA, steps := rest,
                       redundantStates := some (p :: r) },
              some (prevDFA, prevStep))

/-- Iterate `stepForward` a given number of times (driver loop used by the
    concrete executions below), stopping on a crash. -/
def iterForward : Nat → Session → Option Session
  | 0, s => some s
  | n + 1, s => (stepForward s).bind (fun p => iterForward n p.1)

/-- Iterate `stepBackward` a given number of times, stopping on a crash. -/
def iterBackward : Nat → Session → Option Session
  | 0, s => some s
  | n + 1, s => (stepBackward s).bind (fun p => iterBackward n p.1)

/-- Singleton NFA over alphabet `{a}` with no transitions on `a`, state `1`
    both start and accepting; its subset construction has the two states
    `Ø` and `1`. -/
def nfa0 : NFA :=
  { alphabet := ["a"], startState := "1", acceptStates := ["1"],
    powerset := [["Ø"], ["1"]],
    epsTable := [("1", ["1"])],
    reachTable := [] }

/-- Two-state NFA over `{a, b}` in which every transition leads to state `2`;
    its conversion exercises all four step kinds: eight transition fills, two
    unreachable deletions (`Ø` and `1,2`) and one redundancy merge of
    `1` with `2`. -/
def nfa1 : NFA :=
  { alphabet := ["a", "b"], startState := "1", acceptStates := [],
    powerset := [["Ø"], ["1"], ["2"], ["1", "2"]],
    epsTable := [("1", ["1"]), ("2", ["2"])],
    reachTable := [(("1", "a"), ["2"]), (("1", "b"), ["2"]),
                   (("2", "a"), ["2"]), (("2", "b"), ["2"])] }

section Claim8

/-- C8: `Initialize` builds the DFA states as the sorted-comma-joined labels of
    the powerset of NFA states with an all-undefined transition row per state,
    sets the DFA start state to the sorted, comma-joined epsilon closure of the
    NFA start state, sets the DFA accept states to exactly the subsets
    containing at least one NFA accept state, and fails (the thrown `Error`,
    embedded as `none`) if and only if the computed start state is not among
    the generated state labels. -/
theorem c8_initialize_builds_powerset_dfa (s : Session)
    (hsorted : ∀ e ∈ s.nfa.powerset, sortStr e = e) :
    (initializeDFA s = none ↔
      String.intercalate "," (sortStr (dedupFirst (s.nfa.getEpsilonClosureStates s.nfa.startState)))
        ∉ s.nfa.powerset.map (String.intercalate ",")) ∧
    (String.intercalate "," (sortStr (dedupFirst (s.nfa.getEpsilonClosureStates s.nfa.startState)))
        ∈ s.nfa.powerset.map (String.intercalate ",") →
      ∃ d, initializeDFA s = some
            ({ s with dfa := some d, steps := (d, Step.initDFA) :: s.steps }, (d, Step.initDFA)) ∧
        d.states = s.nfa.powerset.map (fun e => String.intercalate "," (sortStr e)) ∧
        d.transitions = d.states.map (fun st =>
          (st, s.nfa.alphabet.map (fun sym => (sym, (none : Option (List String)))))) ∧
        d.startState = String.intercalate ","
          (sortStr (dedupFirst (s.nfa.getEpsilonClosureStates s.nfa.startState))) ∧
        d.acceptStates = (s.nfa.powerset.filter (fun e =>
          decide (∃ a ∈ s.nfa.acceptStates, a ∈ e))).map (String.intercalate ",") ∧
        d.alphabet = s.nfa.alphabet) := by
  have hcontains : ∀ (l : List String) (x : String), l.contains x = true ↔ x ∈ l :=
    fun l x => List.elem_iff
  constructor
  · simp only [initializeDFA]
    by_cases h : String.intercalate ","
        (sortStr (dedupFirst (s.nfa.getEpsilonClosureStates s.nfa.startState)))
        ∈ s.nfa.powerset.map (String.intercalate ",")
    · rw [if_pos ((hcontains _ _).mpr h)]
      simp [h]
    · rw [if_neg (fun hc => h ((hcontains _ _).mp hc))]
      simp [h]
  · intro h
    refine ⟨{ states := s.nfa.powerset.map (String.intercalate ","),
              alphabet := s.nfa.alphabet,
              transitions := (s.nfa.powerset.map (String.intercalate ",")).map (fun st =>
                (st, s.nfa.alphabet.map (fun sym => (sym, (none : Option (List String)))))),
              startState := String.intercalate ","
                (sortStr (dedupFirst (s.nfa.getEpsilonClosureStates s.nfa.startState))),
              acceptStates := (s.nfa.powerset.filter (fun e =>
                s.nfa.acceptStates.any (fun a => e.contains a))).map (String.intercalate ",") },
            ?_, ?_, rfl, rfl, ?_, rfl⟩
    · simp only [initializeDFA]
      rw [if_pos ((hcontains _ _).mpr h)]
    · exact (List.map_eq_map_iff.mpr (fun e he => by rw [hsorted e he])).symm
    · refine congrArg _ (List.filter_congr ?_)
      intro e _
      refine Bool.eq_iff_iff.mpr ?_
      simp [List.any_eq_true, List.elem_iff]

/-- Witness for C8: the hypotheses hold for the session on `nfa0`, where
    initialization succeeds, and its conclusion follows from the theorem. -/
theorem c8_initialize_builds_powerset_dfa_witness :
    (∀ e ∈ (initialSession nfa0).nfa.powerset, sortStr e = e) ∧
    (initializeDFA (initialSession nfa0) = none ↔
      String.intercalate "," (sortStr (dedupFirst ((initialSession nfa0).nfa.getEpsilonClosureStates
          (initialSession nfa0).nfa.startState)))
        ∉ (initialSession nfa0).nfa.powerset.map (String.intercalate ",")) :=
  ⟨by decide, (c8_initialize_builds_powerset_dfa (initialSession nfa0) (by decide)).1⟩

end Claim8

section Claim5Helpers

theorem lookup_map_set (sym : String) (v : List String) :
    ∀ (row : List (String × Option (List String))),
      row.any (fun e => e.1 = sym) = true →
      (row.map (fun e => if e.1 = sym then (e.1, some v) else e)).lookup sym = some (some v)
  | [], h => by simp at h
  | e :: es, h => by
    by_cases he : e.1 = sym
    · subst he
      rw [List.map_cons, if_pos rfl]
      simp [List.lookup]
    · rw [List.map_cons, if_neg he]
      have hb : (sym == e.1) = false := beq_eq_false_iff_ne.mpr (fun hc => he hc.symm)
      simp only [List.lookup, hb]
      exact lookup_map_set sym v es (by simpa [he] using h)

theorem lookup_none_of_any_eq_false {β : Type} {l : List (String × β)} {k : String}
    (h : l.any (fun e => e.1 = k) = false) : l.lookup k = none := by
  induction l with
  | nil => rfl
  | cons e es ih =>
    simp only [List.any_cons, Bool.or_eq_false_iff, decide_eq_false_iff_not] at h
    have hb : (k == e.1) = false := beq_eq_false_iff_ne.mpr (fun hc => h.1 hc.symm)
    simp only [List.lookup, hb]
    exact ih (by simpa using h.2)

theorem lookup_append_right {β : Type} {l₁ l₂ : List (String × β)} {k : String}
    (h : l₁.lookup k = none) : (l₁ ++ l₂).lookup k = l₂.lookup k := by
  induction l₁ with
  | nil => rfl
  | cons e es ih =>
    simp only [List.cons_append, List.lookup] at h ⊢
    cases hbe : (k == e.1)
    · rw [hbe] at h
      exact ih h
    · rw [hbe] at h
      exact Option.noConfusion h

theorem lookup_setRow (row : List (String × Option (List String))) (sym : String)
    (v : List String) : (setRow row sym v).lookup sym = some (some v) := by
  simp only [setRow]
  by_cases h : row.any (fun e => e.1 = sym)
  · rw [if_pos h]
    exact lookup_map_set sym v row h
  · rw [if_neg h]
    rw [lookup_append_right (lookup_none_of_any_eq_false (Bool.of_not_eq_true h))]
    simp [List.lookup]

theorem lookup_some_of_any {β : Type} {l : List (String × β)} {k : String}
    (h : l.any (fun e => e.1 = k) = true) : ∃ b, l.lookup k = some b := by
  induction l with
  | nil => simp at h
  | cons e es ih =>
    by_cases he : e.1 = k
    · subst he
      exact ⟨e.2, by simp [List.lookup]⟩
    · have hb : (k == e.1) = false := beq_eq_false_iff_ne.mpr (fun hc => he hc.symm)
      simp only [List.lookup, hb]
      exact ih (by simpa [he] using h)

theorem lookup_map_setTrans (st sym : String) (v : List String) :
    ∀ (l : List (String × List (String × Option (List String)))) (row : List (String × Option (List String))),
      l.lookup st = some row →
      (l.map (fun r => if r.1 = st then (r.1, setRow r.2 sym v) else r)).lookup st
        = some (setRow row sym v)
  | [], row, h => Option.noConfusion h
  | r :: rs, row, h => by
    by_cases hr : r.1 = st
    · subst hr
      rw [List.map_cons, if_pos rfl]
      simp only [List.lookup, beq_self_eq_true] at h ⊢
      exact congrArg _ (congrArg (setRow · sym v) (Option.some.injEq .. ▸ h))
    · have hb : (st == r.1) = false := beq_eq_false_iff_ne.mpr (fun hc => hr hc.symm)
      rw [List.map_cons, if_neg hr]
      simp only [List.lookup, hb] at h ⊢
      exact lookup_map_setTrans st sym v rs row h

theorem transLookup_eq {d : DFA} {st sym : String}
    {row : List (String × Option (List String))} {e : Option (List String)}
    (h1 : d.transitions.lookup st = some row) (h2 : row.lookup sym = some e) :
    transLookup d st sym = e := by
  simp only [transLookup, h1, h2]

theorem setTrans_spec (d : DFA) (st sym : String) (v : List String)
    (h : d.transitions.any (fun r => r.1 = st) = true) :
    ∃ d', setTrans d st sym v = some d' ∧ transLookup d' st sym = some v ∧
      d'.states = d.states ∧ d'.alphabet = d.alphabet := by
  obtain ⟨row, hrow⟩ := lookup_some_of_any h
  refine ⟨{ d with transitions := d.transitions.map (fun r =>
      if r.1 = st then (r.1, setRow r.2 sym v) else r) }, ?_, ?_, rfl, rfl⟩
  · rw [setTrans, if_pos h]
  · exact transLookup_eq (lookup_map_setTrans st sym v d.transitions row hrow)
      (lookup_setRow row sym v)

theorem foldl_append_eq_flatten {α β : Type} (f : α → List β) :
    ∀ (l : List α) (init : List β),
      l.foldl (fun acc c => acc ++ f c) init = init ++ (l.map f).flatten
  | [], init => by simp
  | c :: cs, init => by
    rw [List.foldl_cons, foldl_append_eq_flatten f cs (init ++ f c)]
    simp

/-- Claim-side description of the Add Transition target (C5's wording): Ø maps
    to Ø; otherwise split the label, union the reachable sets, dedupe, sort,
    drop Ø when any other member is present, else Ø; join. -/
def specTransitionTarget (n : NFA) (state symbol : String) : String :=
  if state = "Ø" then "Ø"
  else
    let u := sortStr (dedupFirst ((splitComma state).map
      (fun c => n.getReachableStates c symbol)).flatten)
    if u.any (fun e => e ≠ "Ø") then
      String.intercalate "," (u.filter (fun e => e ≠ "Ø"))
    else "Ø"

theorem intercalate_single (a : String) : String.intercalate "," [a] = a := rfl

/-- C5: for every Add Transition step, when the cursor sits on the empty-subset
    state `Ø` (equivalently, by the hypothesis tying the label to index 0, on
    state index 0) the written transition is the unconditional `Ø` self-loop;
    otherwise it is obtained by splitting the label on commas, unioning the
    `getReachableStates` results, deduplicating, sorting and joining, with `Ø`
    dropped whenever any other member is present and `Ø` returned when the
    union holds nothing but `Ø` — i.e. exactly `specTransitionTarget`, which is
    also the recorded `toState`. -/
theorem c5_add_transition_target (s : Session) (d : DFA) (state symbol : String) (p q : Nat)
    (hd : s.dfa = some d)
    (hst : d.states.get? s.state_index = some state)
    (hsym : d.alphabet.get? s.alphabet_index = some symbol)
    (hrow : d.transitions.any (fun r => r.1 = state) = true)
    (hiff : state = "Ø" ↔ s.state_index = 0) :
    ∃ d', addNextTransition s p q = some
        ({ s with dfa := some d', alphabet_index := s.alphabet_index + 1,
                  steps := (d', Step.addTransition state (specTransitionTarget s.nfa state symbol)
                    symbol p q) :: s.steps },
         (d', Step.addTransition state (specTransitionTarget s.nfa state symbol) symbol p q)) ∧
      transLookup d' state symbol = some [specTransitionTarget s.nfa state symbol] := by
  by_cases hz : s.state_index = 0
  · have hsO : state = "Ø" := hiff.mpr hz
    subst hsO
    obtain ⟨d', hset, hlook, _, _⟩ := setTrans_spec d "Ø" symbol ["Ø"] hrow
    refine ⟨d', ?_, ?_⟩
    · rw [List.get?_eq_getElem?] at hst
      rw [List.get?_eq_getElem?] at hsym
      rw [hz] at hst
      simp [addNextTransition, hd, hst, hsym, hz, hset, hlook, specTransitionTarget,
        intercalate_single]
    · simpa [specTransitionTarget] using hlook
  · have hsO : ¬ state = "Ø" := fun hc => hz (hiff.mp hc)
    rw [List.get?_eq_getElem?] at hst
    rw [List.get?_eq_getElem?] at hsym
    have hfold : (splitComma state).foldl
        (fun acc c => acc ++ s.nfa.getReachableStates c symbol) []
        = ((splitComma state).map (fun c => s.nfa.getReachableStates c symbol)).flatten := by
      simpa using foldl_append_eq_flatten
        (fun c => s.nfa.getReachableStates c symbol) (splitComma state) []
    set u := sortStr (dedupFirst
      ((splitComma state).map (fun c => s.nfa.getReachableStates c symbol)).flatten) with hu
    have hval : specTransitionTarget s.nfa state symbol =
        String.intercalate "," (if u.any (fun e => e ≠ "Ø")
          then u.filter (fun e => e ≠ "Ø") else ["Ø"]) := by
      simp only [specTransitionTarget, if_neg hsO, ← hu]
      by_cases hany : u.any (fun e => e ≠ "Ø") = true
      · rw [if_pos hany, if_pos hany]
      · rw [if_neg hany, if_neg hany, intercalate_single]
    obtain ⟨d', hset, hlook, _, _⟩ := setTrans_spec d state symbol
      [String.intercalate "," (if u.any (fun e => e ≠ "Ø")
        then u.filter (fun e => e ≠ "Ø") else ["Ø"])] hrow
    refine ⟨d', ?_, ?_⟩
    · simp at hset hlook
      simp [addNextTransition, hd, hst, hsym, hz, hfold, ← hu, hset, hlook,
        intercalate_single]
      simpa using hval.symm
    · rw [hval]
      exact hlook

/-- DFA snapshot right after initialization on `nfa0`, used by witnesses. -/
def dfaInit0 : DFA :=
  { states := ["Ø", "1"], alphabet := ["a"],
    transitions := [("Ø", [("a", none)]), ("1", [("a", none)])],
    startState := "1", acceptStates := ["1"] }

/-- Session on `nfa0` in the filling phase, cursor on state `1`, symbol `a`. -/
def sessFill0 : Session :=
  { nfa := nfa0, dfa := some dfaInit0, steps := [(dfaInit0, Step.initDFA)],
    state_index := 1, alphabet_index := 0,
    unreachableStates := none, redundantStates := none }

/-- Witness for C5: the hypotheses hold for `sessFill0` and the conclusion
    follows by the theorem at that session. -/
theorem c5_add_transition_target_witness :
    (sessFill0.dfa = some dfaInit0 ∧
     dfaInit0.states.get? sessFill0.state_index = some "1" ∧
     dfaInit0.alphabet.get? sessFill0.alphabet_index = some "a" ∧
     dfaInit0.transitions.any (fun r => r.1 = "1") = true ∧
     ("1" = "Ø" ↔ sessFill0.state_index = 0)) ∧
    (∃ d', addNextTransition sessFill0 1 0 = some
        ({ sessFill0 with dfa := some d', alphabet_index := sessFill0.alphabet_index + 1,
                          steps := (d', Step.addTransition "1"
                            (specTransitionTarget sessFill0.nfa "1" "a") "a" 1 0) :: sessFill0.steps },
         (d', Step.addTransition "1" (specTransitionTarget sessFill0.nfa "1" "a") "a" 1 0)) ∧
      transLookup d' "1" "a" = some [specTransitionTarget sessFill0.nfa "1" "a"]) :=
  ⟨⟨rfl, by decide, by decide, by decide, by decide⟩,
   c5_add_transition_target sessFill0 dfaInit0 "1" "a" 1 0 rfl (by decide) (by decide)
     (by decide) (by decide)⟩

end Claim5Helpers

section Claim2

/-- C2 counterexample: running the whole conversion of `nfa1` (12 forward
    steps) and then rewinding, the 12th `stepBackward` pops the `initialize`
    entry (after 11 rewinds it is the only entry left), yet the resulting
    session still holds the redundant-pair queue `[("1","2")]`: the
    `initialize` undo clears `working`, the history, the cursors and the
    unreachable queue, but not the redundant queue, contradicting the claim
    that both pending queues are cleared entirely. -/
theorem c2_backward_initialize_counterexample :
    ((iterForward 12 (initialSession nfa1)).bind (fun s => iterBackward 11 s)).map
        (fun s => s.steps.map Prod.snd) = some [Step.initDFA] ∧
    ((iterForward 12 (initialSession nfa1)).bind (fun s => iterBackward 12 s))
      = some { nfa := nfa1, dfa := none, steps := [], state_index := 0, alphabet_index := 0,
               unreachableStates := none, redundantStates := some [("1", "2")] } :=
  ⟨by decide, by decide⟩

/-- C2 (amended): when `stepBackward()` pops an entry whose tag is
    `initialize`, it sets the working DFA to absent, clears the history log,
    resets both cursors to 0, and clears the unreachable queue to `undefined`;
    the redundant queue is left untouched. -/
theorem c2_backward_initialize_amended (s : Session) (d : DFA) (rest : List (DFA × Step))
    (h : s.steps = (d, Step.initDFA) :: rest) :
    stepBackward s = some
      ({ s with dfa := none, steps := [], state_index := 0, alphabet_index := 0,
                unreachableStates := none }, some (d, Step.initDFA)) := by
  simp [stepBackward, h]

/-- Session whose history holds one `initialize` entry while a redundant-pair
    queue is still cached (the state reached by converting and fully rewinding
    an automaton with a merge step). -/
def sessGhost : Session :=
  { nfa := nfa0, dfa := some dfaInit0, steps := [(dfaInit0, Step.initDFA)],
    state_index := 0, alphabet_index := 0,
    unreachableStates := none, redundantStates := some [("1", "2")] }

/-- Witness for C2's amended theorem at the concrete session `sessGhost`. -/
theorem c2_backward_initialize_amended_witness :
    sessGhost.steps = (dfaInit0, Step.initDFA) :: [] ∧
    stepBackward sessGhost = some
      ({ sessGhost with dfa := none, steps := [], state_index := 0, alphabet_index := 0,
                        unreachableStates := none }, some (dfaInit0, Step.initDFA)) :=
  ⟨rfl, c2_backward_initialize_amended sessGhost dfaInit0 [] rfl⟩

end Claim2

section StepLemmas

theorem adjustCursors_dfa (s : Session) : (adjustCursors s).dfa = s.dfa := by
  cases hdd : s.dfa with
  | none => simp [adjustCursors, hdd]
  | some d =>
    simp only [adjustCursors, hdd]
    split
    · rfl
    · exact hdd

theorem adjustCursors_of_ne (s : Session) (d : DFA) (hd : s.dfa = some d)
    (hai : s.alphabet_index ≠ d.alphabet.length) : adjustCursors s = s := by
  simp only [adjustCursors, hd]
  exact if_neg hai

theorem stepForward_delete_case (s : Session) (d : DFA) (x : String) (rest : List String)
    (hd : s.dfa = some d)
    (hai : s.alphabet_index ≠ d.alphabet.length)
    (hsi : ¬ s.state_index < d.states.length)
    (hu : s.unreachableStates = some (x :: rest)) :
    stepForward s = some
      ({ s with unreachableStates := some rest, dfa := some (d.removeState x),
                steps := (d, Step.deleteState x (d.transitions.lookup x)) :: s.steps },
       some (d, Step.deleteState x (d.transitions.lookup x))) := by
  rw [stepForward]
  rw [adjustCursors_of_ne s d hd hai]
  rw [getNextStep, hd]
  simp only [if_neg hsi, hu]
  simp [deleteNextUnreachableState, hu, hd]

theorem stepForward_merge_case (s : Session) (d : DFA) (p : String × String)
    (rest : List (String × String))
    (hd : s.dfa = some d)
    (hai : s.alphabet_index ≠ d.alphabet.length)
    (hsi : ¬ s.state_index < d.states.length)
    (hu : s.unreachableStates = some [])
    (hr : s.redundantStates = some (p :: rest)) :
    stepForward s = some
      ({ s with redundantStates := some rest, dfa := some (d.mergeStates p.1 p.2),
                steps := (d, Step.mergePair p) :: s.steps },
       some (d, Step.mergePair p)) := by
  rw [stepForward]
  rw [adjustCursors_of_ne s d hd hai]
  rw [getNextStep, hd]
  simp only [if_neg hsi, hu, hr]
  simp [mergeNextRedundantStates, hr, hd, hu]

theorem stepForward_init_case (s : Session)
    (hd : s.dfa = none) :
    stepForward s = (initializeDFA s).map (fun p => (p.1, some p.2)) := by
  rw [stepForward]
  have hadj : adjustCursors s = s := by simp [adjustCursors, hd]
  rw [hadj, getNextStep, hd]

theorem stepForward_add_case (s : Session) (d : DFA)
    (hd : s.dfa = some d)
    (hai : s.alphabet_index ≠ d.alphabet.length)
    (hsi : s.state_index < d.states.length) :
    stepForward s = (addNextTransition s s.state_index s.alphabet_index).map
      (fun p => (p.1, some p.2)) := by
  rw [stepForward]
  rw [adjustCursors_of_ne s d hd hai]
  rw [getNextStep, hd]
  simp only [if_pos hsi]

theorem stepForward_add_wrap_case (s : Session) (d : DFA)
    (hd : s.dfa = some d)
    (hai : s.alphabet_index = d.alphabet.length)
    (hsi : s.state_index + 1 < d.states.length) :
    stepForward s = (addNextTransition
        { s with state_index := s.state_index + 1, alphabet_index := 0 }
        s.state_index s.alphabet_index).map
      (fun p => (p.1, some p.2)) := by
  rw [stepForward]
  have hadj : adjustCursors s =
      { s with state_index := s.state_index + 1, alphabet_index := 0 } := by
    simp [adjustCursors, hd, hai]
  rw [hadj, getNextStep]
  simp only [hd, if_pos hsi]

theorem stepForward_done_case (s : Session) (d : DFA)
    (hd : s.dfa = some d)
    (hai : s.alphabet_index ≠ d.alphabet.length)
    (hsi : ¬ s.state_index < d.states.length)
    (hu : s.unreachableStates = some [])
    (hr : s.redundantStates = some []) :
    stepForward s = some (s, none) := by
  rw [stepForward]
  rw [adjustCursors_of_ne s d hd hai]
  rw [getNextStep, hd]
  simp only [if_neg hsi, hu, hr]
  rfl

end StepLemmas

section Claims1and9

theorem addNextTransition_shape {s : Session} {p q : Nat} {s₁ : Session} {pr : DFA × Step}
    (h : addNextTransition s p q = some (s₁, pr)) :
    s₁ = { s with dfa := some pr.1, alphabet_index := s.alphabet_index + 1,
                  steps := pr :: s.steps } ∧
    ∃ st tgt sym, pr.2 = Step.addTransition st tgt sym p q := by
  unfold addNextTransition at h
  split at h
  · exact absurd h (by simp)
  · split at h
    · exact absurd h (by simp)
    · split at h
      · exact absurd h (by simp)
      · split at h
        · exact absurd h (by simp)
        · split at h
          · exact absurd h (by simp)
          · simp only [Option.some.injEq] at h
            obtain ⟨h1, h2⟩ := Prod.mk.injEq .. ▸ h
            subst h1
            exact ⟨by rw [← h2], _, _, _, by rw [← h2]⟩

theorem initializeDFA_shape {s s₁ : Session} {pr : DFA × Step}
    (h : initializeDFA s = some (s₁, pr)) :
    s₁ = { s with dfa := some pr.1, steps := pr :: s.steps } ∧ pr.2 = Step.initDFA := by
  simp only [initializeDFA] at h
  split at h
  · simp only [Option.some.injEq] at h
    obtain ⟨h1, h2⟩ := Prod.mk.injEq .. ▸ h
    subst h1
    exact ⟨by rw [← h2], by rw [← h2]⟩
  · exact Option.noConfusion h

/-- C9: the snapshot stored in the history entry of a `delete_state` or
    `merge_states` step is the working DFA cloned before the removal or merge,
    whereas the snapshot stored for an `initialize` or `add_transition` step is
    the working DFA after the mutation; consequently `stepBackward()`, which
    assigns the popped snapshot to the working DFA, restores the pre-mutation
    automaton only for `delete_state` and `merge_states` steps (after an
    `add_transition` undo the working DFA is the post-write snapshot). -/
theorem c9_snapshot_timing (s : Session) (d : DFA) :
    (s.dfa = none → ∀ s₁ d₁ stp, stepForward s = some (s₁, some (d₁, stp)) →
       s₁.dfa = some d₁ ∧ s₁.steps.head? = some (d₁, stp)) ∧
    (s.dfa = some d → s.alphabet_index ≠ d.alphabet.length →
     s.state_index < d.states.length →
     ∀ s₁ d₁ stp, stepForward s = some (s₁, some (d₁, stp)) →
       s₁.dfa = some d₁ ∧ s₁.steps.head? = some (d₁, stp) ∧
       ∀ s₂ r₂, stepBackward s₁ = some (s₂, r₂) → s₂.dfa = some d₁) ∧
    (s.dfa = some d → s.alphabet_index ≠ d.alphabet.length →
     ¬ s.state_index < d.states.length →
     ∀ x rest, s.unreachableStates = some (x :: rest) →
       stepForward s = some ({ s with
           unreachableStates := some rest,
           dfa := some (d.removeState x),
           steps := (d, Step.deleteState x (d.transitions.lookup x)) :: s.steps },
         some (d, Step.deleteState x (d.transitions.lookup x))) ∧
       ∀ s₁ r₁, stepForward s = some (s₁, r₁) →
         ∀ s₂ r₂, stepBackward s₁ = some (s₂, r₂) → s₂.dfa = s.dfa) ∧
    (s.dfa = some d → s.alphabet_index ≠ d.alphabet.length →
     ¬ s.state_index < d.states.length →
     s.unreachableStates = some [] →
     ∀ p rest, s.redundantStates = some (p :: rest) →
       stepForward s = some ({ s with
           redundantStates := some rest,
           dfa := some (d.mergeStates p.1 p.2),
           steps := (d, Step.mergePair p) :: s.steps },
         some (d, Step.mergePair p)) ∧
       ∀ s₁ r₁, stepForward s = some (s₁, r₁) →
         ∀ s₂ r₂, stepBackward s₁ = some (s₂, r₂) → s₂.dfa = s.dfa) := by
  refine ⟨?_, ?_, ?_, ?_⟩
  · intro hd s₁ d₁ stp hstep
    rw [stepForward_init_case s hd] at hstep
    rw [Option.map_eq_some'] at hstep
    obtain ⟨⟨s₁', pr⟩, hinit, heq⟩ := hstep
    obtain ⟨h1, h2⟩ := Prod.mk.injEq .. ▸ heq
    subst h1
    have hpr : pr = (d₁, stp) := by
      cases pr
      simp only [Option.some.injEq, Prod.mk.injEq] at h2
      simp [h2.1, h2.2]
    subst hpr
    obtain ⟨hs₁, _⟩ := initializeDFA_shape hinit
    subst hs₁
    exact ⟨rfl, rfl⟩
  · intro hd hai hsi s₁ d₁ stp hstep
    rw [stepForward_add_case s d hd hai hsi] at hstep
    rw [Option.map_eq_some'] at hstep
    obtain ⟨⟨s₁', pr⟩, hadd, heq⟩ := hstep
    obtain ⟨h1, h2⟩ := Prod.mk.injEq .. ▸ heq
    subst h1
    have hpr : pr = (d₁, stp) := by
      cases pr
      simp only [Option.some.injEq, Prod.mk.injEq] at h2
      simp [h2.1, h2.2]
    subst hpr
    obtain ⟨hs₁, st, tgt, sym, hstp⟩ := addNextTransition_shape hadd
    subst hs₁
    simp only at hstp
    refine ⟨rfl, rfl, ?_⟩
    intro s₂ r₂ hback
    subst hstp
    simp only [stepBackward, Option.some.injEq] at hback
    obtain ⟨hb, _⟩ := Prod.mk.injEq .. ▸ hback.symm
    rw [hb]
  · intro hd hai hsi x rest hu
    have hfwd := stepForward_delete_case s d x rest hd hai hsi hu
    refine ⟨hfwd, ?_⟩
    intro s₁ r₁ hstep s₂ r₂ hback
    rw [hfwd] at hstep
    obtain ⟨h1, _⟩ := Prod.mk.injEq .. ▸ (Option.some.injEq .. ▸ hstep)
    subst h1
    simp only [stepBackward, hu, Option.some.injEq] at hback
    obtain ⟨hb, _⟩ := Prod.mk.injEq .. ▸ hback.symm
    rw [hb, hd]
  · intro hd hai hsi hu p rest hr
    have hfwd := stepForward_merge_case s d p rest hd hai hsi hu hr
    refine ⟨hfwd, ?_⟩
    intro s₁ r₁ hstep s₂ r₂ hback
    rw [hfwd] at hstep
    obtain ⟨h1, _⟩ := Prod.mk.injEq .. ▸ (Option.some.injEq .. ▸ hstep)
    subst h1
    simp only [stepBackward, hr, Option.some.injEq] at hback
    obtain ⟨hb, _⟩ := Prod.mk.injEq .. ▸ hback.symm
    rw [hb, hd]

/-- The filled subset-construction DFA of `nfa1` (the working DFA after all
    eight Add Transition steps). -/
def dfaFilled1 : DFA :=
  { states := ["Ø", "1", "2", "1,2"], alphabet := ["a", "b"],
    transitions := [("Ø", [("a", some ["Ø"]), ("b", some ["Ø"])]),
                    ("1", [("a", some ["2"]), ("b", some ["2"])]),
                    ("2", [("a", some ["2"]), ("b", some ["2"])]),
                    ("1,2", [("a", some ["2"]), ("b", some ["2"])])],
    startState := "1", acceptStates := [] }

/-- The session reached from `nfa0` after the initialize step (cursors at 0). -/
def sessInit0 : Session :=
  { nfa := nfa0, dfa := some dfaInit0, steps := [(dfaInit0, Step.initDFA)],
    state_index := 0, alphabet_index := 0,
    unreachableStates := none, redundantStates := none }

/-- The working DFA of `nfa0` after the first Add Transition step (the `Ø`
    self-loop written). -/
def dfaOwrite : DFA :=
  { dfaInit0 with
    transitions := [("Ø", [("a", some ["Ø"])]), ("1", [("a", none)])] }

/-- The first Add Transition step record of the `nfa0` conversion. -/
def stepOwrite : Step := Step.addTransition "Ø" "Ø" "a" 0 0

/-- The session after the first Add Transition step on `sessInit0`. -/
def sessInit0After : Session :=
  { sessInit0 with dfa := some dfaOwrite, alphabet_index := 1,
                   steps := (dfaOwrite, stepOwrite) :: sessInit0.steps }

/-- C1 counterexample: `sessInit0` is the session reached after one forward
    step on `nfa0`; stepping forward (an `add_transition` step) and then
    backward yields a working DFA with the freshly written `Ø` self-loop in
    it, which differs from the pre-step working DFA — the round trip does not
    restore `working`, refuting the claim as stated for the `add_transition`
    kind. -/
theorem c1_roundtrip_counterexample :
    iterForward 1 (initialSession nfa0) = some sessInit0 ∧
    ((stepForward sessInit0).bind (fun pr => stepBackward pr.1)).map
        (fun pr => pr.1.dfa) = some (some dfaOwrite) ∧
    some dfaOwrite ≠ sessInit0.dfa :=
  ⟨by decide, by decide, by decide⟩

/-- The session restored by stepping backward from `sessInit0After`: identical
    to `sessInit0` except that `working` keeps the written transition. -/
def sessInit0Restored : Session := { sessInit0 with dfa := some dfaOwrite }

/-- Witness for C9 at the concrete add step on `sessInit0`: the logged
    snapshot is the post-write DFA, and stepping backward yields that same
    post-write DFA as the working automaton. -/
theorem c9_snapshot_timing_witness :
    (sessInit0.dfa = some dfaInit0 ∧
     sessInit0.alphabet_index ≠ dfaInit0.alphabet.length ∧
     sessInit0.state_index < dfaInit0.states.length ∧
     stepForward sessInit0 = some (sessInit0After, some (dfaOwrite, stepOwrite)) ∧
     stepBackward sessInit0After = some (sessInit0Restored, some (dfaOwrite, stepOwrite))) ∧
    (sessInit0After.dfa = some dfaOwrite ∧
     sessInit0After.steps.head? = some (dfaOwrite, stepOwrite) ∧
     sessInit0Restored.dfa = some dfaOwrite) :=
  ⟨⟨rfl, by decide, by decide, by decide, by decide⟩,
   ((c9_snapshot_timing sessInit0 dfaInit0).2.1 rfl (by decide) (by decide)
      sessInit0After dfaOwrite stepOwrite (by decide)).1,
   ((c9_snapshot_timing sessInit0 dfaInit0).2.1 rfl (by decide) (by decide)
      sessInit0After dfaOwrite stepOwrite (by decide)).2.1,
   ((c9_snapshot_timing sessInit0 dfaInit0).2.1 rfl (by decide) (by decide)
      sessInit0After dfaOwrite stepOwrite (by decide)).2.2
     sessInit0Restored (some (dfaOwrite, stepOwrite)) (by decide)⟩

end Claims1and9

section Claims3and4

/-- C3: `getNextStep` yields exactly one of the five values — the four action
    tags or the `undefined` fall-through (embedded as `none`) — and in the
    done phase (all transitions filled, both pending queues computed and
    empty) it returns the `none` value, mutating nothing. -/
theorem c3_next_step_values (s : Session) (d : DFA)
    (hd : s.dfa = some d) (hsi : ¬ s.state_index < d.states.length)
    (hu : s.unreachableStates = some []) (hr : s.redundantStates = some []) :
    getNextStep s = some (s, none) ∧
    ∀ (s' : Session) (res : Session × Option StepKind), getNextStep s' = some res →
      res.2 = none ∨ res.2 = some StepKind.initDFA ∨
      res.2 = some StepKind.addTransition ∨ res.2 = some StepKind.deleteState ∨
      res.2 = some StepKind.mergePair := by
  constructor
  · rw [getNextStep, hd]
    simp [hsi, hu, hr]
  · intro s' res _
    rcases res with ⟨s₁, k⟩
    rcases k with _ | k
    · exact Or.inl rfl
    · cases k
      · exact Or.inr (Or.inl rfl)
      · exact Or.inr (Or.inr (Or.inl rfl))
      · exact Or.inr (Or.inr (Or.inr (Or.inl rfl)))
      · exact Or.inr (Or.inr (Or.inr (Or.inr rfl)))

/-- C4: protocol misuse is a non-fatal no-op: `stepForward()` in the done
    phase (with the symbol cursor not at the wrap boundary, as at every
    protocol-reachable done state) returns the empty result without mutating
    any session field or appending to history, and `stepBackward()` on an
    empty history returns the empty result leaving the session untouched;
    neither case crashes. -/
theorem c4_protocol_misuse_noop (s : Session) (d : DFA)
    (hd : s.dfa = some d) (hai : s.alphabet_index ≠ d.alphabet.length)
    (hsi : ¬ s.state_index < d.states.length)
    (hu : s.unreachableStates = some []) (hr : s.redundantStates = some []) :
    stepForward s = some (s, none) ∧
    ∀ s' : Session, s'.steps = [] → stepBackward s' = some (s', none) := by
  refine ⟨stepForward_done_case s d hd hai hsi hu hr, ?_⟩
  intro s' h
  simp [stepBackward, h]

/-- The filled working DFA of the `nfa0` conversion (both transitions
    written). -/
def dfaFilled0 : DFA :=
  { states := ["Ø", "1"], alphabet := ["a"],
    transitions := [("Ø", [("a", some ["Ø"])]), ("1", [("a", some ["Ø"])])],
    startState := "1", acceptStates := ["1"] }

/-- A done-phase session of the `nfa0` conversion: transitions filled, both
    queues computed and empty. -/
def sessDone0 : Session :=
  { nfa := nfa0, dfa := some dfaFilled0, steps := [], state_index := 2,
    alphabet_index := 0, unreachableStates := some [], redundantStates := some [] }

/-- Witness for C3 at the concrete done session `sessDone0`. -/
theorem c3_next_step_values_witness :
    (sessDone0.dfa = some dfaFilled0 ∧
     ¬ sessDone0.state_index < dfaFilled0.states.length ∧
     sessDone0.unreachableStates = some [] ∧ sessDone0.redundantStates = some []) ∧
    getNextStep sessDone0 = some (sessDone0, none) :=
  ⟨⟨rfl, by decide, rfl, rfl⟩,
   (c3_next_step_values sessDone0 dfaFilled0 rfl (by decide) rfl rfl).1⟩

/-- Witness for C4 at the concrete done session `sessDone0`, which also has an
    empty history. -/
theorem c4_protocol_misuse_noop_witness :
    (sessDone0.dfa = some dfaFilled0 ∧
     sessDone0.alphabet_index ≠ dfaFilled0.alphabet.length ∧
     ¬ sessDone0.state_index < dfaFilled0.states.length ∧
     sessDone0.unreachableStates = some [] ∧ sessDone0.redundantStates = some [] ∧
     sessDone0.steps = []) ∧
    stepForward sessDone0 = some (sessDone0, none) ∧
    stepBackward sessDone0 = some (sessDone0, none) :=
  ⟨⟨rfl, by decide, by decide, rfl, rfl, rfl⟩,
   (c4_protocol_misuse_noop sessDone0 dfaFilled0 rfl (by decide) (by decide) rfl rfl).1,
   (c4_protocol_misuse_noop sessDone0 dfaFilled0 rfl (by decide) (by decide) rfl rfl).2
     sessDone0 rfl⟩

end Claims3and4

section Claim6

theorem mem_dedupFirstAux {x : String} :
    ∀ {l seen : List String}, x ∈ dedupFirstAux seen l → x ∈ l ∧ ¬ seen.contains x
  | [], seen, h => by simp [dedupFirstAux] at h
  | y :: t, seen, h => by
    simp only [dedupFirstAux] at h
    by_cases hc : seen.contains y
    · rw [if_pos hc] at h
      obtain ⟨h1, h2⟩ := mem_dedupFirstAux h
      exact ⟨List.mem_cons_of_mem y h1, h2⟩
    · rw [if_neg hc] at h
      rcases List.mem_cons.mp h with rfl | h
      · exact ⟨List.mem_cons_self x t, hc⟩
      · obtain ⟨h1, h2⟩ := mem_dedupFirstAux h
        refine ⟨List.mem_cons_of_mem y h1, fun hx => h2 ?_⟩
        exact List.elem_iff.mpr (List.mem_append_left _ (List.elem_iff.mp hx))

theorem dedupFirstAux_nodup : ∀ (l seen : List String), (dedupFirstAux seen l).Nodup
  | [], seen => List.nodup_nil
  | y :: t, seen => by
    simp only [dedupFirstAux]
    by_cases hc : seen.contains y
    · rw [if_pos hc]
      exact dedupFirstAux_nodup t seen
    · rw [if_neg hc]
      refine List.nodup_cons.mpr ⟨fun hy => ?_, dedupFirstAux_nodup t (seen ++ [y])⟩
      obtain ⟨_, h2⟩ := mem_dedupFirstAux hy
      exact h2 (List.elem_iff.mpr (by simp))

theorem dedupFirst_nodup (l : List String) : (dedupFirst l).Nodup :=
  dedupFirstAux_nodup l []

theorem mem_dedupFirst {x : String} {l : List String} (h : x ∈ dedupFirst l) : x ∈ l :=
  (mem_dedupFirstAux h).1

theorem filter_filter_comm {α : Type} (p q : α → Bool) (l : List α) :
    (l.filter q).filter p = (l.filter p).filter q := by
  rw [List.filter_filter, List.filter_filter]
  exact List.filter_congr (fun a _ => Bool.and_comm (p a) (q a))

theorem filter_filter_self {α : Type} (p : α → Bool) (l : List α) :
    (l.filter p).filter p = l.filter p := by
  rw [List.filter_filter]
  exact List.filter_congr (fun a _ => Bool.and_self (p a))

theorem removeState_comm (d : DFA) (x y : String) :
    (d.removeState x).removeState y = (d.removeState y).removeState x := by
  simp only [DFA.removeState, DFA.mk.injEq]
  exact ⟨filter_filter_comm _ _ _, trivial, filter_filter_comm _ _ _, trivial,
    filter_filter_comm _ _ _⟩

theorem removeState_idem (d : DFA) (x : String) :
    (d.removeState x).removeState x = d.removeState x := by
  simp only [DFA.removeState, DFA.mk.injEq]
  exact ⟨filter_filter_self _ _, trivial, filter_filter_self _ _, trivial,
    filter_filter_self _ _⟩

theorem foldl_removeState_dedupAux :
    ∀ (l seen : List String) (d : DFA), (∀ x, seen.contains x → d.removeState x = d) →
      (dedupFirstAux seen l).foldl DFA.removeState d = l.foldl DFA.removeState d
  | [], seen, d, _ => rfl
  | y :: t, seen, d, h => by
    simp only [dedupFirstAux]
    by_cases hc : seen.contains y
    · rw [if_pos hc]
      rw [foldl_removeState_dedupAux t seen d h, List.foldl_cons, h y hc]
    · rw [if_neg hc]
      rw [List.foldl_cons, List.foldl_cons]
      refine foldl_removeState_dedupAux t (seen ++ [y]) (d.removeState y) ?_
      intro x hx
      rcases List.mem_append.mp (List.elem_iff.mp hx) with hx' | hx'
      · rw [removeState_comm, h x (List.elem_iff.mpr hx')]
      · have : x = y := by simpa using hx'
        subst this
        exact removeState_idem d x

theorem foldl_removeState_dedupFirst (l : List String) (d : DFA) :
    (dedupFirst l).foldl DFA.removeState d = l.foldl DFA.removeState d :=
  foldl_removeState_dedupAux l [] d (fun x hx => by simp at hx)

theorem foldl_removeState_startState (l : List String) (d : DFA) :
    (l.foldl DFA.removeState d).startState = d.startState := by
  induction l generalizing d with
  | nil => rfl
  | cons x t ih => exact (ih (d.removeState x)).trans rfl

theorem mem_foldl_removeState {x : String} :
    ∀ {l : List String} {d : DFA}, x ∈ (l.foldl DFA.removeState d).states → x ∈ d.states := by
  intro l
  induction l with
  | nil => exact fun h => h
  | cons y t ih =>
    intro d h
    exact List.mem_of_mem_filter (ih h)

theorem lookup_filter_ne {β : Type} {l : List (String × β)} {x st : String}
    (h : st ≠ x) :
    (l.filter (fun r => r.1 ≠ x)).lookup st = l.lookup st := by
  induction l with
  | nil => rfl
  | cons e es ih =>
    by_cases he : e.1 = x
    · have hd : (decide (e.1 ≠ x)) = false := by simp [he]
      rw [List.filter_cons, hd]
      simp only [Bool.false_eq_true, if_false]
      rw [ih]
      have hb : (st == e.1) = false := beq_eq_false_iff_ne.mpr (fun hc => h (hc ▸ he))
      simp only [List.lookup, hb]
    · have hd : (decide (e.1 ≠ x)) = true := by simp [he]
      rw [List.filter_cons, hd]
      simp only [if_true, List.lookup]
      cases hbe : (st == e.1)
      · exact ih
      · rfl

theorem transLookup_removeState {d : DFA} {x st sym : String} (h : st ≠ x) :
    transLookup (d.removeState x) st sym = transLookup d st sym := by
  simp only [transLookup, DFA.removeState]
  rw [lookup_filter_ne h]

theorem allDefined_removeState {d : DFA} (x : String) (h : allDefined d) :
    allDefined (d.removeState x) := by
  intro st hst sym hsym
  have hmem : st ∈ d.states := List.mem_of_mem_filter hst
  have hne : st ≠ x := by
    have := List.of_mem_filter hst
    simpa using this
  rw [transLookup_removeState hne]
  exact h st hmem sym hsym

theorem allDefined_foldl_removeState :
    ∀ (l : List String) {d : DFA}, allDefined d → allDefined (l.foldl DFA.removeState d)
  | [], _, h => h
  | x :: t, d, h => allDefined_foldl_removeState t (allDefined_removeState x h)

theorem destRow_isSome {d : DFA} {st : String} :
    ∀ {syms : List String}, (∀ sym ∈ syms, (transLookup d st sym).isSome) →
      ∃ ns, destRow d st syms = some ns
  | [], _ => ⟨[], rfl⟩
  | sym :: rest, h => by
    obtain ⟨l, hl⟩ := Option.isSome_iff_exists.mp (h sym (List.mem_cons_self sym rest))
    obtain ⟨ns, hns⟩ := destRow_isSome (fun sy hy => h sy (List.mem_cons_of_mem sym hy))
    exact ⟨String.intercalate "," l :: ns, by simp [destRow, hl, hns]⟩

theorem destAll_isSome {d : DFA} (hdef : allDefined d) :
    ∀ {sts : List String}, (∀ st ∈ sts, st ∈ d.states) →
      ∃ ns, destAll d sts = some ns
  | [], _ => ⟨[], rfl⟩
  | st :: rest, h => by
    obtain ⟨ns, hns⟩ := destRow_isSome
      (fun sym hy => hdef st (h st (List.mem_cons_self st rest)) sym hy)
    obtain ⟨more, hmore⟩ := destAll_isSome hdef
      (fun st' hy => h st' (List.mem_cons_of_mem st hy))
    exact ⟨ns.filter (fun node => node ≠ st) ++ more, by simp [destAll, hns, hmore]⟩

theorem noIncoming_isSome {d : DFA} (hdef : allDefined d) :
    ∃ nwe, noIncoming d = some nwe := by
  obtain ⟨ns, hns⟩ := destAll_isSome hdef (fun st h => h)
  refine ⟨d.states.filter (fun s => ¬ ns.contains s ∧ s ≠ d.startState), ?_⟩
  unfold noIncoming incomingNodes
  rw [hns]
  rfl

theorem noIncoming_spec {d : DFA} {nwe : List String} (h : noIncoming d = some nwe) :
    ∀ x ∈ nwe, x ∈ d.states ∧ x ≠ d.startState := by
  intro x hx
  simp only [noIncoming, Option.map_eq_some'] at h
  obtain ⟨inc, _, rfl⟩ := h
  refine ⟨List.mem_of_mem_filter hx, ?_⟩
  have := List.of_mem_filter hx
  simp only [Bool.decide_and, Bool.and_eq_true, decide_eq_true_eq] at this
  exact this.2

theorem dedupFirstAux_eq_self :
    ∀ (l seen : List String), l.Nodup → (∀ x ∈ l, ¬ seen.contains x) →
      dedupFirstAux seen l = l
  | [], _, _, _ => rfl
  | y :: t, seen, hnd, hdisj => by
    simp only [dedupFirstAux]
    rw [if_neg (hdisj y (List.mem_cons_self y t))]
    refine congrArg _ (dedupFirstAux_eq_self t (seen ++ [y]) (List.Nodup.of_cons hnd) ?_)
    intro x hx hc
    rcases List.mem_append.mp (List.elem_iff.mp hc) with hx' | hx'
    · exact hdisj x (List.mem_cons_of_mem y hx) (List.elem_iff.mpr hx')
    · have : x = y := by simpa using hx'
      subst this
      exact (List.nodup_cons.mp hnd).1 hx

theorem dedupFirst_idem (l : List String) : dedupFirst (dedupFirst l) = dedupFirst l :=
  dedupFirstAux_eq_self (dedupFirst l) [] (dedupFirst_nodup l) (fun x _ => by simp)

theorem unreachAux_spec :
    ∀ (fuel : Nat) (d : DFA) (acc : List String),
      d.states.length < fuel → allDefined d →
      ∃ M, unreachAux fuel d acc = some (dedupFirst (acc ++ M)) ∧
        (∀ x ∈ M, x ∈ d.states ∧ x ≠ d.startState) ∧
        noIncoming (M.foldl DFA.removeState d) = some [] := by
  intro fuel
  induction fuel with
  | zero => intro d acc h; omega
  | succ f ih =>
    intro d acc hlt hdef
    obtain ⟨nwe, hnwe⟩ := noIncoming_isSome hdef
    by_cases hne : nwe = []
    · refine ⟨[], ?_, by simp, ?_⟩
      · simp only [unreachAux]
        rw [hnwe]
        dsimp only
        rw [if_pos hne, List.append_nil]
      · simpa using hne ▸ hnwe
    · have hsub := noIncoming_spec hnwe
      have hlen := foldl_removeState_length_lt nwe d hne (fun x hx => (hsub x hx).1)
      have hdef' := allDefined_foldl_removeState nwe hdef
      obtain ⟨M', hval, hmem', hfix'⟩ :=
        ih (nwe.foldl DFA.removeState d) (acc ++ nwe) (by omega) hdef'
      refine ⟨nwe ++ M', ?_, ?_, ?_⟩
      · simp only [unreachAux]
        rw [hnwe]
        dsimp only
        rw [if_neg hne, hval, List.append_assoc]
        dsimp only
        rw [dedupFirst_idem]
      · intro x hx
        rcases List.mem_append.mp hx with hx' | hx'
        · exact hsub x hx'
        · obtain ⟨h1, h2⟩ := hmem' x hx'
          exact ⟨mem_foldl_removeState h1,
            by rwa [foldl_removeState_startState] at h2⟩
      · rw [List.foldl_append]
        exact hfix'

/-- Claim-side description of C6's marking process (the claim's wording): in
    each round, take the batch of states with no incoming transition other
    than a self-loop, the start state excepted; remove the batch from the
    scratch copy; repeat until a round finds nothing.  The rounds are
    returned in discovery order.  The fuel is an embedding artifact: each
    nonempty round removes at least one state. -/
def specMarkingRounds : Nat → DFA → Option (List (List String))
  | 0, _ => none
  | fuel + 1, d =>
    match noIncoming d with
    | none => none
    | some nwe =>
      if nwe = [] then some []
      else
        match specMarkingRounds fuel (nwe.foldl DFA.removeState d) with
        | none => none
        | some bs => some (nwe :: bs)

theorem unreachAux_eq_rounds :
    ∀ (fuel : Nat) (d : DFA) (acc : List String),
      d.states.length < fuel → allDefined d →
      ∃ bs, specMarkingRounds fuel d = some bs ∧
        (∀ b ∈ bs, b ≠ []) ∧
        unreachAux fuel d acc = some (dedupFirst (acc ++ bs.flatten)) ∧
        (∀ x ∈ bs.flatten, x ∈ d.states ∧ x ≠ d.startState) ∧
        noIncoming (bs.flatten.foldl DFA.removeState d) = some [] := by
  intro fuel
  induction fuel with
  | zero => intro d acc h _; omega
  | succ f ih =>
    intro d acc hlt hdef
    obtain ⟨nwe, hnwe⟩ := noIncoming_isSome hdef
    by_cases hne : nwe = []
    · refine ⟨[], ?_, ?_, ?_, ?_, ?_⟩
      · rw [specMarkingRounds, hnwe]
        dsimp only
        rw [if_pos hne]
      · intro b hb
        exact absurd hb (List.not_mem_nil b)
      · simp only [unreachAux]
        rw [hnwe]
        dsimp only
        rw [if_pos hne]
        simp only [List.flatten_nil, List.append_nil]
      · intro x hx
        exact absurd hx (by simp)
      · exact hne ▸ hnwe
    · have hsub := noIncoming_spec hnwe
      have hlen := foldl_removeState_length_lt nwe d hne (fun x hx => (hsub x hx).1)
      obtain ⟨bs, hspec, hbne, hval, hmem, hfix⟩ :=
        ih (nwe.foldl DFA.removeState d) (acc ++ nwe) (by omega)
          (allDefined_foldl_removeState nwe hdef)
      refine ⟨nwe :: bs, ?_, ?_, ?_, ?_, ?_⟩
      · rw [specMarkingRounds, hnwe]
        dsimp only
        rw [if_neg hne, hspec]
      · intro b hb
        rcases List.mem_cons.mp hb with rfl | hb2
        · exact hne
        · exact hbne b hb2
      · simp only [unreachAux]
        rw [hnwe]
        dsimp only
        rw [if_neg hne, hval]
        dsimp only
        rw [dedupFirst_idem, List.flatten_cons, List.append_assoc]
      · intro x hx
        rw [List.flatten_cons] at hx
        rcases List.mem_append.mp hx with hx1 | hx2
        · exact hsub x hx1
        · obtain ⟨h1, h2⟩ := hmem x hx2
          exact ⟨mem_foldl_removeState h1,
            by rwa [foldl_removeState_startState] at h2⟩
      · rw [List.flatten_cons, List.foldl_append]
        exact hfix

/-- C6: on a scratch copy of the working DFA, the unreachable-state search
    computes exactly the claim's iterated marking process: round after round
    it takes the batch of states with no incoming transition other than a
    self-loop (the start state excepted, never queued), removes the batch
    from the scratch copy, and stops at the first empty batch; the returned
    queue is exactly the first-occurrence deduplication of the concatenated
    batches in discovery order (`dedupFirst batches.flatten`), every recorded
    round is nonempty ("repeat until none are found"), the queue has no
    duplicates, never contains the start state, lists only states of the DFA,
    and removing exactly the queued states reaches the fixed point (one more
    pass finds the empty batch). -/
theorem c6_unreachable_fixed_point (d : DFA) (hdef : allDefined d) :
    ∃ batches L,
      specMarkingRounds (d.states.length + 1) d = some batches ∧
      getUnreachableStates d [] = some L ∧
      L = dedupFirst batches.flatten ∧
      (∀ b ∈ batches, b ≠ []) ∧
      L.Nodup ∧ d.startState ∉ L ∧
      (∀ x ∈ L, x ∈ d.states ∧ x ≠ d.startState) ∧
      noIncoming (L.foldl DFA.removeState d) = some [] := by
  obtain ⟨bs, hspec, hbne, hval, hmem, hfix⟩ :=
    unreachAux_eq_rounds (d.states.length + 1) d [] (by omega) hdef
  refine ⟨bs, dedupFirst bs.flatten, hspec, ?_, rfl, hbne,
    dedupFirst_nodup _, ?_, ?_, ?_⟩
  · rw [getUnreachableStates, hval, List.nil_append]
  · intro hs
    exact (hmem _ (mem_dedupFirst hs)).2 rfl
  · exact fun x hx => hmem x (mem_dedupFirst hx)
  · rw [foldl_removeState_dedupFirst]
    exact hfix

/-- Witness for C6: the filled DFA of the `nfa1` conversion is all-defined and
    the theorem applies to it (its rounds are `[["Ø"], ["1,2"]]` and its queue
    `["Ø", "1,2"]`). -/
theorem c6_unreachable_fixed_point_witness :
    allDefined dfaFilled1 ∧
    (∃ batches L,
      specMarkingRounds (dfaFilled1.states.length + 1) dfaFilled1 = some batches ∧
      getUnreachableStates dfaFilled1 [] = some L ∧
      L = dedupFirst batches.flatten ∧
      (∀ b ∈ batches, b ≠ []) ∧
      L.Nodup ∧ dfaFilled1.startState ∉ L ∧
      (∀ x ∈ L, x ∈ dfaFilled1.states ∧ x ≠ dfaFilled1.startState) ∧
      noIncoming (L.foldl DFA.removeState dfaFilled1) = some []) :=
  ⟨by decide, c6_unreachable_fixed_point dfaFilled1 (by decide)⟩

end Claim6

section Claim7

/-- The transition target read `transitions[st][sym][0]` as a total function:
    `none` when the entry is missing, undefined, or an empty array. -/
def targetAt (d : DFA) (st sym : String) : Option String :=
  (transLookup d st sym).bind List.head?

/-- Claim-side condition of C7 for one symbol: each state's target is either
    itself or the other state of the pair. -/
def pairGood (d : DFA) (s1 s2 sym : String) : Prop :=
  (targetAt d s1 sym = some s1 ∨ targetAt d s1 sym = some s2) ∧
  (targetAt d s2 sym = some s2 ∨ targetAt d s2 sym = some s1)

instance (d : DFA) (s1 s2 sym : String) : Decidable (pairGood d s1 s2 sym) := by
  unfold pairGood; infer_instance

/-- Claim-side redundancy predicate of C7: accept parity plus the per-symbol
    closure condition. -/
def specRedundantPair (d : DFA) (s1 s2 : String) : Prop :=
  (s1 ∈ d.acceptStates ↔ s2 ∈ d.acceptStates) ∧
  ∀ sym ∈ d.alphabet, pairGood d s1 s2 sym

instance (d : DFA) (s1 s2 : String) : Decidable (specRedundantPair d s1 s2) := by
  unfold specRedundantPair; infer_instance

theorem pairSymbolBad_eq (d : DFA) (s1 s2 sym : String)
    (h1 : (transLookup d s1 sym).isSome) (h2 : (transLookup d s2 sym).isSome) :
    pairSymbolBad d s1 s2 sym = some (decide (¬ pairGood d s1 s2 sym)) := by
  obtain ⟨l1, hl1⟩ := Option.isSome_iff_exists.mp h1
  obtain ⟨l2, hl2⟩ := Option.isSome_iff_exists.mp h2
  have ht1 : targetAt d s1 sym = l1.head? := by simp [targetAt, hl1]
  have ht2 : targetAt d s2 sym = l2.head? := by simp [targetAt, hl2]
  have hr1 : rawTarget d s1 sym = some l1.head? := by simp [rawTarget, hl1]
  have hr2 : rawTarget d s2 sym = some l2.head? := by simp [rawTarget, hl2]
  rw [pairSymbolBad, hr1]
  dsimp only
  by_cases hA : l1.head? = some s1 ∨ l1.head? = some s2
  · rw [if_neg (show ¬ (l1.head? ≠ some s1 ∧ l1.head? ≠ some s2) from
      fun hn => hA.elim hn.1 hn.2)]
    rw [hr2]
    dsimp only
    refine congrArg _ (decide_eq_decide.mpr ?_)
    unfold pairGood
    rw [ht1, ht2]
    constructor
    · intro hb hg
      rcases hb with ⟨hb2, hb1⟩
      rcases hg.2 with hg' | hg'
      · exact hb2 hg'
      · exact hb1 hg'
    · intro hg
      have hB : ¬ (l2.head? = some s2 ∨ l2.head? = some s1) := fun hB => hg ⟨hA, hB⟩
      exact ⟨fun h2 => hB (Or.inl h2), fun h1s => hB (Or.inr h1s)⟩
  · rw [if_pos (show l1.head? ≠ some s1 ∧ l1.head? ≠ some s2 from
      ⟨fun h => hA (Or.inl h), fun h => hA (Or.inr h)⟩)]
    refine congrArg _ ?_
    have hng : ¬ pairGood d s1 s2 sym := by
      unfold pairGood
      rw [ht1, ht2]
      intro hg
      exact hA hg.1
    simp [hng]

theorem redundantFlagAux_spec (d : DFA) (s1 s2 : String) :
    ∀ (syms : List String) (acc : Bool),
      (∀ sym ∈ syms, (transLookup d s1 sym).isSome ∧ (transLookup d s2 sym).isSome) →
      redundantFlagAux d s1 s2 syms acc
        = some (acc && decide (∀ sym ∈ syms, pairGood d s1 s2 sym))
  | [], acc, _ => by simp [redundantFlagAux]
  | sym :: rest, acc, h => by
    rw [redundantFlagAux,
      pairSymbolBad_eq d s1 s2 sym (h sym (List.mem_cons_self sym rest)).1
        (h sym (List.mem_cons_self sym rest)).2]
    dsimp only
    rw [redundantFlagAux_spec d s1 s2 rest (acc && !decide (¬ pairGood d s1 s2 sym))
      (fun sy hy => h sy (List.mem_cons_of_mem sym hy))]
    refine congrArg _ ?_
    by_cases hg : pairGood d s1 s2 sym
    · by_cases hrest : ∀ sy ∈ rest, pairGood d s1 s2 sy
      · have : ∀ sy ∈ sym :: rest, pairGood d s1 s2 sy := by
          intro sy hy
          rcases List.mem_cons.mp hy with rfl | hy
          · exact hg
          · exact hrest sy hy
        simp [hg, hrest, this]
      · have : ¬ ∀ sy ∈ sym :: rest, pairGood d s1 s2 sy :=
          fun hall => hrest (fun sy hy => hall sy (List.mem_cons_of_mem sym hy))
        simp [hg, hrest, this]
    · have : ¬ ∀ sy ∈ sym :: rest, pairGood d s1 s2 sy :=
        fun hall => hg (hall sym (List.mem_cons_self sym rest))
      simp [hg, this]

theorem redundantFlag_spec (d : DFA) (s1 s2 : String)
    (h : ∀ sym ∈ d.alphabet, (transLookup d s1 sym).isSome ∧ (transLookup d s2 sym).isSome) :
    redundantFlag d s1 s2 = some (decide (∀ sym ∈ d.alphabet, pairGood d s1 s2 sym)) := by
  rw [redundantFlag, redundantFlagAux_spec d s1 s2 d.alphabet true h, Bool.true_and]

theorem parity_iff (d : DFA) (s1 s2 : String) :
    parity d s1 s2 = true ↔ (s1 ∈ d.acceptStates ↔ s2 ∈ d.acceptStates) := by
  simp only [parity, decide_eq_true_eq, List.contains, List.elem_iff]
  tauto

theorem pairIsRedundant_iff (d : DFA) (s1 s2 : String) (hdef : allDefined d)
    (h1 : s1 ∈ d.states) (h2 : s2 ∈ d.states) :
    pairIsRedundant d s1 s2 = some true ↔ specRedundantPair d s1 s2 := by
  have hreads : ∀ sym ∈ d.alphabet,
      (transLookup d s1 sym).isSome ∧ (transLookup d s2 sym).isSome :=
    fun sym hy => ⟨hdef s1 h1 sym hy, hdef s2 h2 sym hy⟩
  unfold pairIsRedundant specRedundantPair
  by_cases hp : parity d s1 s2 = true
  · rw [if_pos hp, redundantFlag_spec d s1 s2 hreads]
    simp only [Option.some.injEq, decide_eq_true_eq]
    constructor
    · intro hall
      exact ⟨(parity_iff d s1 s2).mp hp, hall⟩
    · exact fun h => h.2
  · rw [if_neg hp]
    constructor
    · intro hc
      simp at hc
    · intro hsp
      exact absurd ((parity_iff d s1 s2).mpr hsp.1) hp

theorem findInner_none_spec {d : DFA} {s1 : String} :
    ∀ {l : List String}, findInner d s1 l = some none →
      ∀ y ∈ l, pairIsRedundant d s1 y = some false
  | [], _, y, hy => absurd hy (List.not_mem_nil y)
  | z :: t, h, y, hy => by
    rw [findInner] at h
    by_cases hp : parity d s1 z
    · rw [if_pos hp] at h
      match hf : redundantFlag d s1 z with
      | none => rw [hf] at h; exact absurd h (by simp)
      | some true => rw [hf] at h; exact absurd h (by simp)
      | some false =>
        rw [hf] at h
        rcases List.mem_cons.mp hy with rfl | hy'
        · rw [pairIsRedundant, if_pos hp, hf]
        · exact findInner_none_spec h y hy'
    · rw [if_neg hp] at h
      rcases List.mem_cons.mp hy with rfl | hy'
      · rw [pairIsRedundant, if_neg hp]
      · exact findInner_none_spec h y hy'

theorem findInner_some_spec {d : DFA} {s1 : String} :
    ∀ {l : List String} {s2 : String}, findInner d s1 l = some (some s2) →
      ∃ l1 l2, l = l1 ++ s2 :: l2 ∧
        (∀ y ∈ l1, pairIsRedundant d s1 y = some false) ∧
        pairIsRedundant d s1 s2 = some true
  | [], s2, h => absurd h (by simp [findInner])
  | z :: t, s2, h => by
    rw [findInner] at h
    by_cases hp : parity d s1 z
    · rw [if_pos hp] at h
      match hf : redundantFlag d s1 z with
      | none => rw [hf] at h; exact absurd h (by simp)
      | some true =>
        rw [hf] at h
        simp only [Option.some.injEq] at h
        subst h
        exact ⟨[], t, rfl, by simp, by rw [pairIsRedundant, if_pos hp, hf]⟩
      | some false =>
        rw [hf] at h
        obtain ⟨l1, l2, hsplit, hpre, hred⟩ := findInner_some_spec h
        exact ⟨z :: l1, l2, by rw [hsplit]; rfl, by
          intro y hy
          rcases List.mem_cons.mp hy with rfl | hy'
          · rw [pairIsRedundant, if_pos hp, hf]
          · exact hpre y hy', hred⟩
    · rw [if_neg hp] at h
      obtain ⟨l1, l2, hsplit, hpre, hred⟩ := findInner_some_spec h
      exact ⟨z :: l1, l2, by rw [hsplit]; rfl, by
        intro y hy
        rcases List.mem_cons.mp hy with rfl | hy'
        · rw [pairIsRedundant, if_neg hp]
        · exact hpre y hy', hred⟩

theorem findPairAux_spec {d : DFA} :
    ∀ {l : List String} {a b : String}, findPairAux d l = some (some (a, b)) →
      ∃ l1 l2, l = l1 ++ a :: l2 ∧
        (∀ x ∈ l1, findInner d x (d.states.filter (fun e => e ≠ x)) = some none) ∧
        findInner d a (d.states.filter (fun e => e ≠ a)) = some (some b)
  | [], a, b, h => absurd h (by simp [findPairAux])
  | z :: t, a, b, h => by
    rw [findPairAux] at h
    match hf : findInner d z (d.states.filter (fun e => e ≠ z)) with
    | none => rw [hf] at h; exact absurd h (by simp)
    | some (some s2) =>
      rw [hf] at h
      simp only [Option.some.injEq] at h
      obtain ⟨h1, h2⟩ := Prod.mk.injEq .. ▸ h
      subst h1
      subst h2
      exact ⟨[], t, rfl, by simp, hf⟩
    | some none =>
      rw [hf] at h
      obtain ⟨l1, l2, hsplit, hpre, hfound⟩ := findPairAux_spec h
      exact ⟨z :: l1, l2, by rw [hsplit]; rfl, by
        intro x hx
        rcases List.mem_cons.mp hx with rfl | hx'
        · exact hf
        · exact hpre x hx', hfound⟩

theorem getRedundantStates_none {d : DFA} {acc : List (String × String)}
    (h : findRedundantPair d = some none) : getRedundantStates d acc = some acc := by
  rw [getRedundantStates, redundAux, h]

theorem getRedundantStates_found {d : DFA} {acc : List (String × String)}
    {p : String × String} (h : findRedundantPair d = some (some p)) :
    getRedundantStates d acc =
      getRedundantStates (d.mergeStates p.1 p.2) (acc ++ [p]) := by
  rw [getRedundantStates, redundAux, h]
  dsimp only
  rw [getRedundantStates]
  have hb := (findPairAux_mem h).1
  have hlt := mergeStates_states_length_lt d p.1 p.2 hb
  exact redundAux_fuel_irrelevant _ _ _ _ (by omega) (by omega)

/-- C7: two states form a redundant pair exactly when both are accept states
    or both are not, and on every alphabet symbol each one's transition target
    is itself or the other (the code's per-pair test is equivalent to the
    claim's predicate on an all-defined DFA); the search scans ordered pairs in
    state order, the pair it reports is the first qualifying one (everything
    earlier in scan order fails the test), and the queue accumulates the
    merges in exactly that first-found order, restarting on the reduced
    scratch copy after each merge. -/
theorem c7_redundant_pairs (d : DFA) :
    (∀ s1 s2, allDefined d → s1 ∈ d.states → s2 ∈ d.states →
      (pairIsRedundant d s1 s2 = some true ↔ specRedundantPair d s1 s2)) ∧
    (∀ acc, findRedundantPair d = some none → getRedundantStates d acc = some acc) ∧
    (∀ acc a b, findRedundantPair d = some (some (a, b)) →
      getRedundantStates d acc =
        getRedundantStates (d.mergeStates a b) (acc ++ [(a, b)]) ∧
      b ≠ a ∧ b ∈ d.states ∧ pairIsRedundant d a b = some true ∧
      (∃ l1 l2, d.states = l1 ++ a :: l2 ∧
        ∀ x ∈ l1, findInner d x (d.states.filter (fun e => e ≠ x)) = some none) ∧
      (∃ m1 m2, d.states.filter (fun e => e ≠ a) = m1 ++ b :: m2 ∧
        ∀ y ∈ m1, pairIsRedundant d a y = some false)) ∧
    (∀ x l, findInner d x l = some none → ∀ y ∈ l, pairIsRedundant d x y = some false) := by
  refine ⟨fun s1 s2 hdef h1 h2 => pairIsRedundant_iff d s1 s2 hdef h1 h2,
    fun acc h => getRedundantStates_none h, ?_,
    fun x l h => findInner_none_spec h⟩
  intro acc a b h
  obtain ⟨hbmem, hbne⟩ := findPairAux_mem h
  obtain ⟨l1, l2, hsplit, hpre, hfound⟩ := findPairAux_spec h
  obtain ⟨m1, m2, hmsplit, hmpre, hred⟩ := findInner_some_spec hfound
  exact ⟨getRedundantStates_found h, hbne, hbmem, hred,
    ⟨l1, l2, hsplit, hpre⟩, ⟨m1, m2, hmsplit, hmpre⟩⟩

/-- The two-state DFA left after the unreachable deletions of the `nfa1`
    conversion; its states `1` and `2` are a redundant pair. -/
def dfaMerge : DFA :=
  { states := ["1", "2"], alphabet := ["a", "b"],
    transitions := [("1", [("a", some ["2"]), ("b", some ["2"])]),
                    ("2", [("a", some ["2"]), ("b", some ["2"])])],
    startState := "1", acceptStates := [] }

/-- Witness for C7 at the concrete DFA `dfaMerge`. -/
theorem c7_redundant_pairs_witness :
    (allDefined dfaMerge ∧ "1" ∈ dfaMerge.states ∧ "2" ∈ dfaMerge.states ∧
     findRedundantPair dfaMerge = some (some ("1", "2"))) ∧
    (pairIsRedundant dfaMerge "1" "2" = some true ↔
      specRedundantPair dfaMerge "1" "2") ∧
    getRedundantStates dfaMerge [] =
      getRedundantStates (dfaMerge.mergeStates "1" "2") ([] ++ [("1", "2")]) :=
  ⟨⟨by decide, by decide, by decide, by decide⟩,
   (c7_redundant_pairs dfaMerge).1 "1" "2" (by decide) (by decide) (by decide),
   ((c7_redundant_pairs dfaMerge).2.2.1 [] "1" "2" (by decide)).1⟩

end Claim7

section Claim10

/-- The transition entries already generated by the stepping protocol: every
    `(state, symbol)` pair strictly before the cursor position is defined. -/
def partialDef (d : DFA) (si ai : Nat) : Prop :=
  ∀ i j (hi : i < d.states.length) (hj : j < d.alphabet.length),
    (i < si ∨ (i = si ∧ j < ai)) →
    (transLookup d (d.states.get ⟨i, hi⟩) (d.alphabet.get ⟨j, hj⟩)).isSome

theorem partialDef_allDefined {d : DFA} {si ai : Nat} (hlen : d.states.length ≤ si)
    (h : partialDef d si ai) : allDefined d := by
  intro st hst sym hsym
  obtain ⟨i, rfl⟩ := List.mem_iff_get.mp hst
  obtain ⟨j, rfl⟩ := List.mem_iff_get.mp hsym
  have := h i j i.isLt j.isLt (Or.inl (by omega))
  simpa using this

theorem allDefined_partialDef {d : DFA} (h : allDefined d) (si ai : Nat) :
    partialDef d si ai := by
  intro i j hi hj _
  exact h _ (List.get_mem _ _ _) _ (List.get_mem _ _ _)

theorem partialDef_wrap {d : DFA} {si : Nat} (h : partialDef d si d.alphabet.length) :
    partialDef d (si + 1) 0 := by
  intro i j hi hj hcond
  refine h i j hi hj ?_
  rcases hcond with hlt | ⟨heq, hj0⟩
  · rcases Nat.lt_succ_iff_lt_or_eq.mp hlt with hlt' | rfl
    · exact Or.inl hlt'
    · exact Or.inr ⟨rfl, hj⟩
  · omega

theorem partialDef_transfer {d d' : DFA} {si ai : Nat}
    (hstates : d'.states = d.states) (halpha : d'.alphabet = d.alphabet)
    (hmono : ∀ st sym, (transLookup d st sym).isSome → (transLookup d' st sym).isSome)
    (h : partialDef d si ai) : partialDef d' si ai := by
  intro i j hi' hj' hcond
  have hi : i < d.states.length := by rw [← hstates]; exact hi'
  have hj : j < d.alphabet.length := by rw [← halpha]; exact hj'
  have hgs : d'.states.get ⟨i, hi'⟩ = d.states.get ⟨i, hi⟩ := by
    rw [List.get_of_eq hstates]
  have hga : d'.alphabet.get ⟨j, hj'⟩ = d.alphabet.get ⟨j, hj⟩ := by
    rw [List.get_of_eq halpha]
  rw [hgs, hga]
  exact hmono _ _ (h i j hi hj hcond)

theorem transLookup_eq_bind (d : DFA) (x y : String) :
    transLookup d x y
      = (d.transitions.lookup x).bind (fun row => (row.lookup y).bind (fun e => e)) := by
  cases hrow : d.transitions.lookup x with
  | none => simp [transLookup, hrow]
  | some row =>
    cases hre : row.lookup y with
    | none => simp [transLookup, hrow, hre]
    | some e => cases e <;> simp [transLookup, hrow, hre]

theorem lookup_append_left {β : Type} {l₁ l₂ : List (String × β)} {k : String} {b : β}
    (h : l₁.lookup k = some b) : (l₁ ++ l₂).lookup k = some b := by
  induction l₁ with
  | nil => exact Option.noConfusion h
  | cons e es ih =>
    simp only [List.cons_append, List.lookup] at h ⊢
    cases hbe : (k == e.1)
    · rw [hbe] at h
      exact ih h
    · rw [hbe] at h
      exact h

theorem lookup_map_set_ne (sym : String) (v : List String) {y : String} (hne : y ≠ sym) :
    ∀ (row : List (String × Option (List String))),
      (row.map (fun e => if e.1 = sym then (e.1, some v) else e)).lookup y = row.lookup y
  | [] => rfl
  | e :: es => by
    by_cases he : e.1 = sym
    · rw [List.map_cons, if_pos he]
      have hb : (y == e.1) = false := beq_eq_false_iff_ne.mpr (fun hc => hne (hc.trans he))
      simp only [List.lookup, hb]
      exact lookup_map_set_ne sym v hne es
    · rw [List.map_cons, if_neg he]
      simp only [List.lookup]
      cases hbe : (y == e.1)
      · exact lookup_map_set_ne sym v hne es
      · rfl

theorem lookup_setRow_ne (row : List (String × Option (List String))) (sym : String)
    (v : List String) {y : String} (hne : y ≠ sym) :
    (setRow row sym v).lookup y = row.lookup y := by
  simp only [setRow]
  by_cases h : row.any (fun e => e.1 = sym)
  · rw [if_pos h]
    exact lookup_map_set_ne sym v hne row
  · rw [if_neg h]
    cases hrl : row.lookup y with
    | none =>
      rw [lookup_append_right hrl]
      have hb : (y == sym) = false := beq_eq_false_iff_ne.mpr hne
      simp [List.lookup, hb]
    | some b => exact lookup_append_left hrl

theorem lookup_map_setTrans_ne (st sym : String) (v : List String) {x : String}
    (hne : x ≠ st) :
    ∀ (l : List (String × List (String × Option (List String)))),
      (l.map (fun r => if r.1 = st then (r.1, setRow r.2 sym v) else r)).lookup x
        = l.lookup x
  | [] => rfl
  | r :: rs => by
    by_cases hr : r.1 = st
    · rw [List.map_cons, if_pos hr]
      have hb : (x == r.1) = false := beq_eq_false_iff_ne.mpr (fun hc => hne (hc.trans hr))
      simp only [List.lookup, hb]
      exact lookup_map_setTrans_ne st sym v hne rs
    · rw [List.map_cons, if_neg hr]
      simp only [List.lookup]
      cases hbe : (x == r.1)
      · exact lookup_map_setTrans_ne st sym v hne rs
      · rfl

theorem setTrans_inv {d d₂ : DFA} {st sym : String} {v : List String}
    (h : setTrans d st sym v = some d₂) :
    d₂.states = d.states ∧ d₂.alphabet = d.alphabet ∧
    transLookup d₂ st sym = some v ∧
    (∀ x y, (transLookup d x y).isSome → (transLookup d₂ x y).isSome) := by
  unfold setTrans at h
  split at h
  · rename_i hany
    simp only [Option.some.injEq] at h
    have hs : d₂.states = d.states := by rw [← h]
    have ha : d₂.alphabet = d.alphabet := by rw [← h]
    have ht : d₂.transitions = d.transitions.map
        (fun r => if r.1 = st then (r.1, setRow r.2 sym v) else r) := by rw [← h]
    obtain ⟨row, hrow⟩ := lookup_some_of_any hany
    refine ⟨hs, ha, ?_, ?_⟩
    · refine transLookup_eq ?_ (lookup_setRow row sym v)
      rw [ht]
      exact lookup_map_setTrans st sym v d.transitions row hrow
    · intro x y hxy
      rw [transLookup_eq_bind] at hxy
      rw [transLookup_eq_bind, ht]
      by_cases hx : x = st
      · subst hx
        rw [lookup_map_setTrans x sym v d.transitions row hrow]
        rw [hrow] at hxy
        by_cases hy : y = sym
        · subst hy
          rw [Option.some_bind, lookup_setRow row y v, Option.some_bind]
          rfl
        · rw [Option.some_bind, lookup_setRow_ne row sym v hy]
          rw [Option.some_bind] at hxy
          exact hxy
      · rw [lookup_map_setTrans_ne st sym v hx d.transitions]
        exact hxy
  · exact Option.noConfusion h

theorem lookup_mergeRow (a b : String) :
    ∀ (row : List (String × Option (List String))) (sym : String),
      (row.map (fun e =>
          (e.1, e.2.map (fun tgt => tgt.map (fun x => if x = b then a else x))))).lookup sym
        = (row.lookup sym).map
            (fun o => o.map (fun tgt => tgt.map (fun x => if x = b then a else x)))
  | [], _ => rfl
  | e :: es, sym => by
    simp only [List.map_cons, List.lookup]
    cases hbe : (sym == e.1)
    · exact lookup_mergeRow a b es sym
    · rfl

theorem lookup_mergeTrans (a b : String) :
    ∀ (l : List (String × List (String × Option (List String)))) (st : String),
      (l.map (fun r => (r.1, r.2.map (fun e =>
          (e.1, e.2.map (fun tgt => tgt.map (fun x => if x = b then a else x))))))).lookup st
        = (l.lookup st).map (fun row => row.map (fun e =>
            (e.1, e.2.map (fun tgt => tgt.map (fun x => if x = b then a else x)))))
  | [], _ => rfl
  | r :: rs, st => by
    simp only [List.map_cons, List.lookup]
    cases hbe : (st == r.1)
    · exact lookup_mergeTrans a b rs st
    · rfl

theorem transLookup_mergeStates {d : DFA} (a b : String) {st : String} (hne : st ≠ b)
    (sym : String) :
    transLookup (d.mergeStates a b) st sym
      = (transLookup d st sym).map
          (fun tgt => tgt.map (fun x => if x = b then a else x)) := by
  rw [transLookup_eq_bind, transLookup_eq_bind]
  show ((((d.transitions.filter (fun r => r.1 ≠ b)).map (fun r => (r.1, r.2.map (fun e =>
      (e.1, e.2.map (fun tgt => tgt.map (fun x => if x = b then a else x))))))).lookup st).bind
        (fun row => (row.lookup sym).bind (fun e => e)))
      = _
  rw [lookup_mergeTrans, lookup_filter_ne hne]
  cases hrow : d.transitions.lookup st with
  | none => rfl
  | some row =>
    simp only [Option.map_some', Option.some_bind]
    rw [lookup_mergeRow]
    cases hre : row.lookup sym with
    | none => rfl
    | some e =>
      simp only [Option.map_some', Option.some_bind]

theorem allDefined_mergeStates {d : DFA} (a b : String) (h : allDefined d) :
    allDefined (d.mergeStates a b) := by
  intro st hst sym hsym
  have hmem : st ∈ d.states := List.mem_of_mem_filter hst
  have hne : st ≠ b := by simpa using List.of_mem_filter hst
  rw [transLookup_mergeStates a b hne sym]
  have := h st hmem sym hsym
  cases hl : transLookup d st sym with
  | none => rw [hl] at this; simp at this
  | some l => rfl

theorem partialDef_extend {d : DFA} {si ai : Nat} {state symbol : String}
    (h : partialDef d si ai)
    (hst : d.states.get? si = some state)
    (hsym : d.alphabet.get? ai = some symbol)
    (hdef : (transLookup d state symbol).isSome) :
    partialDef d si (ai + 1) := by
  intro i j hi hj hcond
  rcases hcond with hlt | ⟨rfl, hj1⟩
  · exact h i j hi hj (Or.inl hlt)
  · rcases Nat.lt_succ_iff_lt_or_eq.mp hj1 with hj2 | rfl
    · exact h i j hi hj (Or.inr ⟨rfl, hj2⟩)
    · have h1 : d.states.get ⟨i, hi⟩ = state := by
        rw [List.get?_eq_get hi] at hst
        exact Option.some.injEq .. ▸ hst
      have h2 : d.alphabet.get ⟨j, hj⟩ = symbol := by
        rw [List.get?_eq_get hj] at hsym
        exact Option.some.injEq .. ▸ hsym
      rw [h1, h2]
      exact hdef

theorem pair_inj2 {X s₁ : Session} {k0 k : Option StepKind}
    (h : (some (X, k0) : Option (Session × Option StepKind)) = some (s₁, k)) :
    s₁ = X ∧ k = k0 := by
  simp only [Option.some.injEq, Prod.mk.injEq] at h
  exact ⟨h.1.symm, h.2.symm⟩

/-- Full inversion of `getNextStep`: the cached-queue writes touch no other
    session field, and each returned tag pins down the phase test that
    produced it. -/
theorem getNextStep_inv {s s₁ : Session} {k : Option StepKind}
    (h : getNextStep s = some (s₁, k)) :
    (s₁.nfa = s.nfa ∧ s₁.dfa = s.dfa ∧ s₁.steps = s.steps ∧
     s₁.state_index = s.state_index ∧ s₁.alphabet_index = s.alphabet_index) ∧
    (k = some StepKind.initDFA → s.dfa = none) ∧
    (k = some StepKind.addTransition →
      ∃ d, s.dfa = some d ∧ s.state_index < d.states.length) ∧
    ((k = some StepKind.deleteState ∨ k = some StepKind.mergePair ∨ k = none) →
      ∃ d, s.dfa = some d ∧ ¬ s.state_index < d.states.length) := by
  cases hd : s.dfa with
  | none =>
    rw [getNextStep, hd] at h
    obtain ⟨rfl, rfl⟩ := pair_inj2 h
    exact ⟨⟨rfl, by simp [hd], rfl, rfl, rfl⟩, fun _ => rfl, by simp, by simp⟩
  | some d =>
    rw [getNextStep, hd] at h
    dsimp only at h
    by_cases hsi : s.state_index < d.states.length
    · rw [if_pos hsi] at h
      obtain ⟨rfl, rfl⟩ := pair_inj2 h
      exact ⟨⟨rfl, by simp [hd], rfl, rfl, rfl⟩, by simp, fun _ => ⟨d, rfl, hsi⟩, by simp⟩
    · rw [if_neg hsi] at h
      cases hu : s.unreachableStates with
      | some u =>
        simp only [hu] at h
        by_cases hul : u.length > 0
        · rw [if_pos hul] at h
          obtain ⟨rfl, rfl⟩ := pair_inj2 h
          exact ⟨⟨rfl, by simp [hd], rfl, rfl, rfl⟩, by simp, by simp, fun _ => ⟨d, rfl, hsi⟩⟩
        · rw [if_neg hul] at h
          cases hr : s.redundantStates with
          | some r =>
            simp only [hr] at h
            by_cases hrl : r.length > 0
            · rw [if_pos hrl] at h
              obtain ⟨rfl, rfl⟩ := pair_inj2 h
              exact ⟨⟨rfl, by simp [hd], rfl, rfl, rfl⟩, by simp, by simp, fun _ => ⟨d, rfl, hsi⟩⟩
            · rw [if_neg hrl] at h
              obtain ⟨rfl, rfl⟩ := pair_inj2 h
              exact ⟨⟨rfl, by simp [hd], rfl, rfl, rfl⟩, by simp, by simp, fun _ => ⟨d, rfl, hsi⟩⟩
          | none =>
            simp only [hr] at h
            cases hgr : getRedundantStates d [] with
            | none =>
              rw [hgr] at h
              exact Option.noConfusion h
            | some r =>
              rw [hgr] at h
              dsimp only at h
              by_cases hrl : r.length > 0
              · rw [if_pos hrl] at h
                obtain ⟨rfl, rfl⟩ := pair_inj2 h
                exact ⟨⟨rfl, by simp [hd], rfl, rfl, rfl⟩, by simp, by simp, fun _ => ⟨d, rfl, hsi⟩⟩
              · rw [if_neg hrl] at h
                obtain ⟨rfl, rfl⟩ := pair_inj2 h
                exact ⟨⟨rfl, by simp [hd], rfl, rfl, rfl⟩, by simp, by simp, fun _ => ⟨d, rfl, hsi⟩⟩
      | none =>
        simp only [hu] at h
        cases hgu : getUnreachableStates d [] with
        | none =>
          rw [hgu] at h
          exact Option.noConfusion h
        | some u =>
          rw [hgu] at h
          dsimp only at h
          by_cases hul : u.length > 0
          · rw [if_pos hul] at h
            obtain ⟨rfl, rfl⟩ := pair_inj2 h
            exact ⟨⟨rfl, by simp [hd], rfl, rfl, rfl⟩, by simp, by simp, fun _ => ⟨d, rfl, hsi⟩⟩
          · rw [if_neg hul] at h
            cases hr : s.redundantStates with
            | some r =>
              simp only [hr] at h
              by_cases hrl : r.length > 0
              · rw [if_pos hrl] at h
                obtain ⟨rfl, rfl⟩ := pair_inj2 h
                exact ⟨⟨rfl, by simp [hd], rfl, rfl, rfl⟩, by simp, by simp, fun _ => ⟨d, rfl, hsi⟩⟩
              · rw [if_neg hrl] at h
                obtain ⟨rfl, rfl⟩ := pair_inj2 h
                exact ⟨⟨rfl, by simp [hd], rfl, rfl, rfl⟩, by simp, by simp, fun _ => ⟨d, rfl, hsi⟩⟩
            | none =>
              simp only [hr] at h
              cases hgr : getRedundantStates d [] with
              | none =>
                rw [hgr] at h
                exact Option.noConfusion h
              | some r =>
                rw [hgr] at h
                dsimp only at h
                by_cases hrl : r.length > 0
                · rw [if_pos hrl] at h
                  obtain ⟨rfl, rfl⟩ := pair_inj2 h
                  exact ⟨⟨rfl, by simp [hd], rfl, rfl, rfl⟩, by simp, by simp, fun _ => ⟨d, rfl, hsi⟩⟩
                · rw [if_neg hrl] at h
                  obtain ⟨rfl, rfl⟩ := pair_inj2 h
                  exact ⟨⟨rfl, by simp [hd], rfl, rfl, rfl⟩, by simp, by simp, fun _ => ⟨d, rfl, hsi⟩⟩

theorem pair_inj2s {X s₁ : Session} {p0 p : DFA × Step}
    (h : (some (X, p0) : Option (Session × (DFA × Step))) = some (s₁, p)) :
    s₁ = X ∧ p = p0 := by
  simp only [Option.some.injEq, Prod.mk.injEq] at h
  exact ⟨h.1.symm, h.2.symm⟩

/-- Inversion of a successful `addNextTransition`: the cursor state and symbol
    labels exist, the stored automaton keeps the state sequence and alphabet
    and loses no defined transition entry, the freshly written `(state, symbol)`
    entry reads back defined, and the session/step shapes are as logged. -/
theorem addNextTransition_success {s : Session} {p q : Nat} {s₁ : Session}
    {pr : DFA × Step} (h : addNextTransition s p q = some (s₁, pr)) :
    ∃ d state symbol entry,
      s.dfa = some d ∧
      d.states.get? s.state_index = some state ∧
      d.alphabet.get? s.alphabet_index = some symbol ∧
      pr.1.states = d.states ∧ pr.1.alphabet = d.alphabet ∧
      (∀ x y, (transLookup d x y).isSome → (transLookup pr.1 x y).isSome) ∧
      transLookup pr.1 state symbol = some entry ∧
      pr.2 = Step.addTransition state (String.intercalate "," entry) symbol p q ∧
      s₁ = { s with dfa := some pr.1, alphabet_index := s.alphabet_index + 1,
                    steps := pr :: s.steps } := by
  rw [addNextTransition] at h
  cases hd : s.dfa with
  | none => rw [hd] at h; exact Option.noConfusion h
  | some d =>
    rw [hd] at h
    dsimp only at h
    cases hst : d.states.get? s.state_index with
    | none => rw [hst] at h; exact Option.noConfusion h
    | some state =>
      rw [hst] at h
      dsimp only at h
      cases hsym : d.alphabet.get? s.alphabet_index with
      | none => rw [hsym] at h; exact Option.noConfusion h
      | some symbol =>
        rw [hsym] at h
        dsimp only at h
        cases hset : (if s.state_index = 0 then setTrans d "Ø" symbol ["Ø"]
          else
            setTrans d state symbol
              [String.intercalate ","
                (if (sortStr (dedupFirst ((splitComma state).foldl
                      (fun acc c => acc ++ s.nfa.getReachableStates c symbol) []))).any
                      (fun e => e ≠ "Ø") then
                  (sortStr (dedupFirst ((splitComma state).foldl
                      (fun acc c => acc ++ s.nfa.getReachableStates c symbol) []))).filter
                      (fun e => e ≠ "Ø")
                else ["Ø"])]) with
        | none => rw [hset] at h; exact Option.noConfusion h
        | some d₂ =>
        rw [hset] at h
        dsimp only at h
        cases hent : transLookup d₂ state symbol with
        | none => rw [hent] at h; exact Option.noConfusion h
        | some entry =>
        rw [hent] at h
        dsimp only at h
        obtain ⟨rfl, rfl⟩ := pair_inj2s h
        have hti : d₂.states = d.states ∧ d₂.alphabet = d.alphabet ∧
            (∀ x y, (transLookup d x y).isSome → (transLookup d₂ x y).isSome) := by
          by_cases h0 : s.state_index = 0
          · rw [if_pos h0] at hset
            obtain ⟨h1, h2, _, h4⟩ := setTrans_inv hset
            exact ⟨h1, h2, h4⟩
          · rw [if_neg h0] at hset
            obtain ⟨h1, h2, _, h4⟩ := setTrans_inv hset
            exact ⟨h1, h2, h4⟩
        exact ⟨d, state, symbol, entry, rfl, hst, hsym, hti.1, hti.2.1, hti.2.2,
          hent, rfl, rfl⟩

/-- Inversion of a successful `deleteNextUnreachableState`. -/
theorem deleteNext_shape {s s₁ : Session} {pr : DFA × Step}
    (h : deleteNextUnreachableState s = some (s₁, pr)) :
    ∃ x rest d, s.unreachableStates = some (x :: rest) ∧ s.dfa = some d ∧
      pr = (d, Step.deleteState x (d.transitions.lookup x)) ∧
      s₁ = { s with unreachableStates := some rest,
                    dfa := some (d.removeState x),
                    steps := pr :: s.steps } := by
  rw [deleteNextUnreachableState] at h
  cases hu : s.unreachableStates with
  | none => rw [hu] at h; exact Option.noConfusion h
  | some u =>
    rw [hu] at h
    cases u with
    | nil => exact Option.noConfusion h
    | cons x rest =>
      dsimp only at h
      cases hd : s.dfa with
      | none => rw [hd] at h; exact Option.noConfusion h
      | some d =>
        rw [hd] at h
        dsimp only at h
        obtain ⟨rfl, rfl⟩ := pair_inj2s h
        exact ⟨x, rest, d, rfl, rfl, rfl, rfl⟩

/-- Inversion of a successful `mergeNextRedundantStates`. -/
theorem mergeNext_shape {s s₁ : Session} {pr : DFA × Step}
    (h : mergeNextRedundantStates s = some (s₁, pr)) :
    ∃ p rest d, s.redundantStates = some (p :: rest) ∧ s.dfa = some d ∧
      pr = (d, Step.mergePair p) ∧
      s₁ = { s with redundantStates := some rest,
                    dfa := some (d.mergeStates p.1 p.2),
                    steps := pr :: s.steps } := by
  rw [mergeNextRedundantStates] at h
  cases hr : s.redundantStates with
  | none => rw [hr] at h; exact Option.noConfusion h
  | some r =>
    rw [hr] at h
    cases r with
    | nil => exact Option.noConfusion h
    | cons p rest =>
      dsimp only at h
      cases hd : s.dfa with
      | none => rw [hd] at h; exact Option.noConfusion h
      | some d =>
        rw [hd] at h
        dsimp only at h
        obtain ⟨rfl, rfl⟩ := pair_inj2s h
        exact ⟨p, rest, d, rfl, rfl, rfl, rfl⟩

/-- Invariant carried by each history entry: `add_transition` snapshots are
    defined strictly below the recorded pre-step cursors, `delete_state` and
    `merge_states` snapshots are fully defined (they are taken after the fill
    phase), and `initialize` entries carry no constraint. -/
def StepInv : DFA × Step → Prop
  | (_, Step.initDFA) => True
  | (dd, Step.addTransition _ _ _ psi pai) => partialDef dd psi pai
  | (dd, Step.deleteState _ _) => allDefined dd
  | (dd, Step.mergePair _) => allDefined dd

/-- Session invariant of the stepping protocol: the working DFA is defined on
    every `(state, symbol)` pair strictly before the cursor position, the
    cursors are reset while no DFA exists, and every history entry satisfies
    `StepInv`. -/
def Inv (s : Session) : Prop :=
  (∀ d, s.dfa = some d → partialDef d s.state_index s.alphabet_index) ∧
  (s.dfa = none → s.state_index = 0 ∧ s.alphabet_index = 0) ∧
  (∀ e ∈ s.steps, StepInv e)

theorem Inv_adjustCursors {s : Session} (h : Inv s) : Inv (adjustCursors s) := by
  obtain ⟨h1, h2, h3⟩ := h
  rw [adjustCursors]
  cases hd : s.dfa with
  | none => exact ⟨h1, h2, h3⟩
  | some d =>
    dsimp only
    by_cases hai : s.alphabet_index = d.alphabet.length
    · rw [if_pos hai]
      refine ⟨?_, fun hnone => Option.noConfusion hnone, h3⟩
      intro d' hd'
      have hdd : some d = some d' := hd'
      obtain rfl : d = d' := Option.some.injEq .. ▸ hdd
      exact partialDef_wrap (hai ▸ h1 d hd)
    · rw [if_neg hai]
      exact ⟨h1, h2, h3⟩

theorem Inv_initialSession (n : NFA) : Inv (initialSession n) :=
  ⟨fun d hd => Option.noConfusion hd, fun _ => ⟨rfl, rfl⟩,
   fun e he => absurd he (List.not_mem_nil e)⟩

theorem partialDef_zero (d : DFA) : partialDef d 0 0 := by
  intro i j hi hj hcond
  rcases hcond with hlt | ⟨_, hlt⟩ <;> exact absurd hlt (Nat.not_lt_zero _)

/-- `stepForward` preserves the session invariant. -/
theorem stepForward_inv {s s' : Session} {r : Option (DFA × Step)}
    (hInv : Inv s) (h : stepForward s = some (s', r)) : Inv s' := by
  have hInva : Inv (adjustCursors s) := Inv_adjustCursors hInv
  rw [stepForward] at h
  cases hg : getNextStep (adjustCursors s) with
  | none => rw [hg] at h; exact Option.noConfusion h
  | some pk =>
    obtain ⟨s₁, k⟩ := pk
    rw [hg] at h
    dsimp only at h
    obtain ⟨⟨hf1, hf2, hf3, hf4, hf5⟩, hkinit, hkadd, hkoth⟩ := getNextStep_inv hg
    have hInv1 : Inv s₁ := by
      refine ⟨?_, ?_, ?_⟩
      · intro d hd
        rw [hf4, hf5]
        exact hInva.1 d (hf2 ▸ hd)
      · intro hnone
        rw [hf4, hf5]
        exact hInva.2.1 (hf2 ▸ hnone)
      · intro e he
        exact hInva.2.2 e (hf3 ▸ he)
    cases k with
    | none =>
      simp only [Option.some.injEq, Prod.mk.injEq] at h
      obtain ⟨rfl, rfl⟩ := h
      exact hInv1
    | some kk =>
      cases kk with
      | initDFA =>
        obtain ⟨⟨s₂, pd, pst⟩, hinit, hmap⟩ := Option.map_eq_some'.mp h
        simp only [Prod.mk.injEq] at hmap
        obtain ⟨rfl, rfl⟩ := hmap
        obtain ⟨hshape, hkind⟩ := initializeDFA_shape hinit
        have hkind' : pst = Step.initDFA := hkind
        subst hkind'
        subst hshape
        have hdn : s₁.dfa = none := by rw [hf2]; exact hkinit rfl
        obtain ⟨hz1, hz2⟩ := hInv1.2.1 hdn
        refine ⟨?_, fun hnone => Option.noConfusion hnone, ?_⟩
        · intro d' hd'
          show partialDef d' s₁.state_index s₁.alphabet_index
          rw [hz1, hz2]
          exact partialDef_zero d'
        · intro e he
          have he' : e ∈ (pd, Step.initDFA) :: s₁.steps := he
          rcases List.mem_cons.mp he' with rfl | hmem
          · exact trivial
          · exact hInv1.2.2 e hmem
      | addTransition =>
        obtain ⟨⟨s₂, pd, pst⟩, hadd, hmap⟩ := Option.map_eq_some'.mp h
        simp only [Prod.mk.injEq] at hmap
        obtain ⟨rfl, rfl⟩ := hmap
        obtain ⟨d, state, symbol, entry, hd1, hst, hsym, hps, hpa, hmono, hent,
          hpr2, hshape⟩ := addNextTransition_success hadd
        have hpr2' : pst = Step.addTransition state (String.intercalate "," entry)
            symbol s.state_index s.alphabet_index := hpr2
        subst hpr2'
        subst hshape
        dsimp only at hps hpa hmono hent
        have hpd : partialDef d s₁.state_index s₁.alphabet_index := hInv1.1 d hd1
        have hpd2 : partialDef pd s₁.state_index s₁.alphabet_index :=
          partialDef_transfer hps hpa hmono hpd
        have hpdext : partialDef pd s₁.state_index (s₁.alphabet_index + 1) := by
          refine @partialDef_extend pd s₁.state_index s₁.alphabet_index state symbol
            hpd2 ?_ ?_ ?_
          · rw [hps]; exact hst
          · rw [hpa]; exact hsym
          · rw [hent]; rfl
        have hsd : s.dfa = some d := by
          rw [← adjustCursors_dfa s, ← hf2]; exact hd1
        have hstep : partialDef pd s.state_index s.alphabet_index :=
          partialDef_transfer hps hpa hmono (hInv.1 d hsd)
        refine ⟨?_, fun hnone => Option.noConfusion hnone, ?_⟩
        · intro d' hd'
          have hdd : some pd = some d' := hd'
          obtain rfl : pd = d' := Option.some.injEq .. ▸ hdd
          exact hpdext
        · intro e he
          have he' : e ∈ (pd, Step.addTransition state (String.intercalate "," entry)
              symbol s.state_index s.alphabet_index) :: s₁.steps := he
          rcases List.mem_cons.mp he' with rfl | hmem
          · exact hstep
          · exact hInv1.2.2 e hmem
      | deleteState =>
        obtain ⟨⟨s₂, pd, pst⟩, hdel, hmap⟩ := Option.map_eq_some'.mp h
        simp only [Prod.mk.injEq] at hmap
        obtain ⟨rfl, rfl⟩ := hmap
        obtain ⟨x, rest, d, hu, hd1, hpr, hshape⟩ := deleteNext_shape hdel
        simp only [Prod.mk.injEq] at hpr
        obtain ⟨rfl, rfl⟩ := hpr
        subst hshape
        obtain ⟨d0, hd0, hnsi⟩ := hkoth (Or.inl rfl)
        have hdd0 : some pd = some d0 := by rw [← hd1, hf2]; exact hd0
        obtain rfl : pd = d0 := Option.some.injEq .. ▸ hdd0
        have hdef : allDefined pd := by
          refine partialDef_allDefined ?_ (hInv1.1 pd hd1)
          rw [hf4]
          omega
        refine ⟨?_, fun hnone => Option.noConfusion hnone, ?_⟩
        · intro d' hd'
          have hdd : some (pd.removeState x) = some d' := hd'
          obtain rfl : pd.removeState x = d' := Option.some.injEq .. ▸ hdd
          exact allDefined_partialDef (allDefined_removeState x hdef) _ _
        · intro e he
          have he' : e ∈ (pd, Step.deleteState x (pd.transitions.lookup x))
              :: s₁.steps := he
          rcases List.mem_cons.mp he' with rfl | hmem
          · exact hdef
          · exact hInv1.2.2 e hmem
      | mergePair =>
        obtain ⟨⟨s₂, pd, pst⟩, hmer, hmap⟩ := Option.map_eq_some'.mp h
        simp only [Prod.mk.injEq] at hmap
        obtain ⟨rfl, rfl⟩ := hmap
        obtain ⟨p, rest, d, hrq, hd1, hpr, hshape⟩ := mergeNext_shape hmer
        simp only [Prod.mk.injEq] at hpr
        obtain ⟨rfl, rfl⟩ := hpr
        subst hshape
        obtain ⟨d0, hd0, hnsi⟩ := hkoth (Or.inr (Or.inl rfl))
        have hdd0 : some pd = some d0 := by rw [← hd1, hf2]; exact hd0
        obtain rfl : pd = d0 := Option.some.injEq .. ▸ hdd0
        have hdef : allDefined pd := by
          refine partialDef_allDefined ?_ (hInv1.1 pd hd1)
          rw [hf4]
          omega
        refine ⟨?_, fun hnone => Option.noConfusion hnone, ?_⟩
        · intro d' hd'
          have hdd : some (pd.mergeStates p.1 p.2) = some d' := hd'
          obtain rfl : pd.mergeStates p.1 p.2 = d' := Option.some.injEq .. ▸ hdd
          exact allDefined_partialDef (allDefined_mergeStates p.1 p.2 hdef) _ _
        · intro e he
          have he' : e ∈ (pd, Step.mergePair p) :: s₁.steps := he
          rcases List.mem_cons.mp he' with rfl | hmem
          · exact hdef
          · exact hInv1.2.2 e hmem

/-- `stepBackward` preserves the session invariant. -/
theorem stepBackward_inv {s s' : Session} {r : Option (DFA × Step)}
    (hInv : Inv s) (h : stepBackward s = some (s', r)) : Inv s' := by
  obtain ⟨h1, h2, h3⟩ := hInv
  rw [stepBackward] at h
  cases hst : s.steps with
  | nil =>
    rw [hst] at h
    dsimp only at h
    simp only [Option.some.injEq, Prod.mk.injEq] at h
    obtain ⟨rfl, rfl⟩ := h
    exact ⟨h1, h2, h3⟩
  | cons e rest =>
    obtain ⟨prevDFA, prevStep⟩ := e
    have hse : StepInv (prevDFA, prevStep) :=
      h3 _ (hst ▸ List.mem_cons_self (prevDFA, prevStep) rest)
    have hrest : ∀ e' ∈ rest, StepInv e' :=
      fun e' he' => h3 e' (hst ▸ List.mem_cons_of_mem _ he')
    rw [hst] at h
    dsimp only at h
    cases prevStep with
    | initDFA =>
      simp only [Option.some.injEq, Prod.mk.injEq] at h
      obtain ⟨rfl, rfl⟩ := h
      exact ⟨fun d hd => Option.noConfusion hd, fun _ => ⟨rfl, rfl⟩,
        fun e he => absurd he (List.not_mem_nil e)⟩
    | addTransition f t sym psi pai =>
      simp only [Option.some.injEq, Prod.mk.injEq] at h
      obtain ⟨rfl, rfl⟩ := h
      refine ⟨?_, fun hnone => Option.noConfusion hnone, hrest⟩
      intro d' hd'
      have hdd : some prevDFA = some d' := hd'
      obtain rfl : prevDFA = d' := Option.some.injEq .. ▸ hdd
      exact hse
    | deleteState x tr =>
      cases hu : s.unreachableStates with
      | none =>
        rw [hu] at h
        exact Option.noConfusion h
      | some u =>
        rw [hu] at h
        dsimp only at h
        simp only [Option.some.injEq, Prod.mk.injEq] at h
        obtain ⟨rfl, rfl⟩ := h
        refine ⟨?_, fun hnone => Option.noConfusion hnone, hrest⟩
        intro d' hd'
        have hdd : some prevDFA = some d' := hd'
        obtain rfl : prevDFA = d' := Option.some.injEq .. ▸ hdd
        exact allDefined_partialDef hse _ _
    | mergePair p =>
      cases hr : s.redundantStates with
      | none =>
        rw [hr] at h
        exact Option.noConfusion h
      | some rq =>
        rw [hr] at h
        dsimp only at h
        simp only [Option.some.injEq, Prod.mk.injEq] at h
        obtain ⟨rfl, rfl⟩ := h
        refine ⟨?_, fun hnone => Option.noConfusion hnone, hrest⟩
        intro d' hd'
        have hdd : some prevDFA = some d' := hd'
        obtain rfl : prevDFA = d' := Option.some.injEq .. ▸ hdd
        exact allDefined_partialDef hse _ _

/-- Sessions reachable under the stepping protocol. -/
inductive Reachable : Session → Prop where
  | init (n : NFA) : Reachable (initialSession n)
  | fwd {s s' : Session} {r : Option (DFA × Step)} :
      Reachable s → stepForward s = some (s', r) → Reachable s'
  | bwd {s s' : Session} {r : Option (DFA × Step)} :
      Reachable s → stepBackward s = some (s', r) → Reachable s'

/-- Every reachable session satisfies the invariant. -/
theorem Reachable_Inv {s : Session} (h : Reachable s) : Inv s := by
  induction h with
  | init n => exact Inv_initialSession n
  | fwd _ hstep ih => exact stepForward_inv ih hstep
  | bwd _ hstep ih => exact stepBackward_inv ih hstep

theorem Reachable_iterForward :
    ∀ (n : Nat) {s s' : Session}, Reachable s → iterForward n s = some s' →
      Reachable s'
  | 0, s, s', h, hit => by
    rw [iterForward] at hit
    exact (Option.some.injEq .. ▸ hit) ▸ h
  | n + 1, s, s', h, hit => by
    rw [iterForward] at hit
    cases hsf : stepForward s with
    | none => rw [hsf] at hit; exact Option.noConfusion hit
    | some p =>
      rw [hsf] at hit
      exact Reachable_iterForward n (Reachable.fwd h hsf) hit

theorem findInner_isSome {d : DFA} (hdef : allDefined d) {s1 : String}
    (h1 : s1 ∈ d.states) :
    ∀ {l : List String}, (∀ y ∈ l, y ∈ d.states) → (findInner d s1 l).isSome
  | [], _ => rfl
  | s2 :: rest, hsub => by
    rw [findInner]
    by_cases hp : parity d s1 s2
    · rw [if_pos hp]
      rw [redundantFlag_spec d s1 s2 (fun sym hy =>
        ⟨hdef s1 h1 sym hy, hdef s2 (hsub s2 (List.mem_cons_self s2 rest)) sym hy⟩)]
      cases hdec : decide (∀ sym ∈ d.alphabet, pairGood d s1 s2 sym)
      · exact findInner_isSome hdef h1 (fun y hy => hsub y (List.mem_cons_of_mem s2 hy))
      · rfl
    · rw [if_neg hp]
      exact findInner_isSome hdef h1 (fun y hy => hsub y (List.mem_cons_of_mem s2 hy))

theorem findPairAux_isSome {d : DFA} (hdef : allDefined d) :
    ∀ {l : List String}, (∀ x ∈ l, x ∈ d.states) → (findPairAux d l).isSome
  | [], _ => rfl
  | s1 :: rest, hsub => by
    rw [findPairAux]
    have hin := findInner_isSome hdef (hsub s1 (List.mem_cons_self s1 rest))
      (fun y hy => List.mem_of_mem_filter hy :
        ∀ y ∈ d.states.filter (fun e => e ≠ s1), y ∈ d.states)
    obtain ⟨res, hres⟩ := Option.isSome_iff_exists.mp hin
    rw [hres]
    cases res with
    | none => exact findPairAux_isSome hdef (fun x hx => hsub x (List.mem_cons_of_mem s1 hx))
    | some s2 => rfl

theorem redundAux_isSome :
    ∀ (fuel : Nat) (d : DFA) (list : List (String × String)),
      d.states.length < fuel → allDefined d → (redundAux fuel d list).isSome := by
  intro fuel
  induction fuel with
  | zero => intro d list h _; omega
  | succ f ih =>
    intro d list hlt hdef
    rw [redundAux]
    have hfp : (findRedundantPair d).isSome := findPairAux_isSome hdef (fun x hx => hx)
    obtain ⟨res, hres⟩ := Option.isSome_iff_exists.mp hfp
    rw [hres]
    cases res with
    | none => rfl
    | some p =>
      have hb := (findPairAux_mem hres).1
      have hlt2 := mergeStates_states_length_lt d p.1 p.2 hb
      exact ih (d.mergeStates p.1 p.2) (list ++ [p]) (by omega)
        (allDefined_mergeStates p.1 p.2 hdef)

theorem getRedundantStates_isSome {d : DFA} (hdef : allDefined d)
    (list : List (String × String)) : (getRedundantStates d list).isSome :=
  redundAux_isSome (d.states.length + 1) d list (by omega) hdef

theorem getUnreachableStates_isSome {d : DFA} (hdef : allDefined d)
    (list : List String) : (getUnreachableStates d list).isSome := by
  obtain ⟨M, hval, _, _⟩ := unreachAux_spec (d.states.length + 1) d list (by omega) hdef
  rw [getUnreachableStates, hval]
  rfl

theorem getNextStep_isSome {s : Session} {d : DFA} (hd : s.dfa = some d)
    (hdef : allDefined d) : (getNextStep s).isSome := by
  obtain ⟨uq, huq⟩ := Option.isSome_iff_exists.mp (getUnreachableStates_isSome hdef [])
  obtain ⟨rq, hrq⟩ := Option.isSome_iff_exists.mp (getRedundantStates_isSome hdef [])
  rw [getNextStep, hd]
  dsimp only
  by_cases hsi : s.state_index < d.states.length
  · rw [if_pos hsi]
    rfl
  · rw [if_neg hsi]
    cases hu : s.unreachableStates with
    | some u =>
      dsimp only
      by_cases hul : u.length > 0
      · rw [if_pos hul]
        rfl
      · rw [if_neg hul]
        cases hr : s.redundantStates with
        | some rr =>
          dsimp only
          by_cases hrl : rr.length > 0
          · rw [if_pos hrl]
            rfl
          · rw [if_neg hrl]
            rfl
        | none =>
          rw [hrq]
          dsimp only
          by_cases hrl : rq.length > 0
          · rw [if_pos hrl]
            rfl
          · rw [if_neg hrl]
            rfl
    | none =>
      rw [huq]
      dsimp only
      by_cases hul : uq.length > 0
      · rw [if_pos hul]
        rfl
      · rw [if_neg hul]
        cases hr : s.redundantStates with
        | some rr =>
          dsimp only
          by_cases hrl : rr.length > 0
          · rw [if_pos hrl]
            rfl
          · rw [if_neg hrl]
            rfl
        | none =>
          rw [hrq]
          dsimp only
          by_cases hrl : rq.length > 0
          · rw [if_pos hrl]
            rfl
          · rw [if_neg hrl]
            rfl

/-- The session reached after four forward steps of the `nfa0` conversion:
    initialize, the two transition fills, and the done-detecting step that
    caches both (empty) pending queues. -/
def sessC10 : Session :=
  { nfa := nfa0, dfa := some dfaFilled0,
    steps := [(dfaFilled0, Step.addTransition "1" "Ø" "a" 0 1),
              (dfaOwrite, stepOwrite),
              (dfaInit0, Step.initDFA)],
    state_index := 2, alphabet_index := 0,
    unreachableStates := some [], redundantStates := some [] }

/-- C10: at every session reachable under the stepping protocol, whenever the
    phase rule of `getNextStep` would dispatch past the transition-fill phase
    (the adjusted state cursor has reached the number of DFA states, which is
    exactly when the pending-queue searches can be invoked), every
    `transitions[state][symbol]` entry of the working DFA is defined, and
    consequently the unreachable-state search, the redundant-state search and
    `getNextStep` itself all complete without reading a property of
    `undefined` (no embedded crash: all three return `some`). -/
theorem c10_search_safety (s : Session) (d : DFA) (hreach : Reachable s)
    (hd : (adjustCursors s).dfa = some d)
    (hsi : d.states.length ≤ (adjustCursors s).state_index) :
    allDefined d ∧ (getUnreachableStates d []).isSome ∧
    (getRedundantStates d []).isSome ∧ (getNextStep (adjustCursors s)).isSome := by
  have hInv := Inv_adjustCursors (Reachable_Inv hreach)
  have hdef : allDefined d := partialDef_allDefined hsi (hInv.1 d hd)
  exact ⟨hdef, getUnreachableStates_isSome hdef [], getRedundantStates_isSome hdef [],
    getNextStep_isSome hd hdef⟩

/-- Witness for C10: the session four forward steps into the `nfa0` conversion
    is reachable, sits past the fill phase, and the theorem applies to it. -/
theorem c10_search_safety_witness :
    Reachable sessC10 ∧ (adjustCursors sessC10).dfa = some dfaFilled0 ∧
    dfaFilled0.states.length ≤ (adjustCursors sessC10).state_index ∧
    (allDefined dfaFilled0 ∧ (getUnreachableStates dfaFilled0 []).isSome ∧
     (getRedundantStates dfaFilled0 []).isSome ∧
     (getNextStep (adjustCursors sessC10)).isSome) :=
  have hreach : Reachable sessC10 :=
    Reachable_iterForward 4 (Reachable.init nfa0) (by decide)
  ⟨hreach, by decide, by decide,
   c10_search_safety sessC10 dfaFilled0 hreach (by decide) (by decide)⟩

end Claim10

section Claim1Revised

theorem adjustCursors_nfa (s : Session) : (adjustCursors s).nfa = s.nfa := by
  rw [adjustCursors]
  cases hd : s.dfa with
  | none => rfl
  | some d =>
    dsimp only
    split
    · rfl
    · rfl

theorem adjustCursors_steps (s : Session) : (adjustCursors s).steps = s.steps := by
  rw [adjustCursors]
  cases hd : s.dfa with
  | none => rfl
  | some d =>
    dsimp only
    split
    · rfl
    · rfl

theorem adjustCursors_unreachable (s : Session) :
    (adjustCursors s).unreachableStates = s.unreachableStates := by
  rw [adjustCursors]
  cases hd : s.dfa with
  | none => rfl
  | some d =>
    dsimp only
    split
    · rfl
    · rfl

theorem adjustCursors_redundant (s : Session) :
    (adjustCursors s).redundantStates = s.redundantStates := by
  rw [adjustCursors]
  cases hd : s.dfa with
  | none => rfl
  | some d =>
    dsimp only
    split
    · rfl
    · rfl

theorem adjustCursors_none {s : Session} (hd : s.dfa = none) :
    adjustCursors s = s := by
  rw [adjustCursors, hd]

/-- Dissection of a successful `stepForward` that performed a step: the phase
    rule ran on the cursor-adjusted session and dispatched to exactly one of
    the four actions. -/
theorem stepForward_kinds {s s' : Session} {pd : DFA} {pst : Step}
    (h : stepForward s = some (s', some (pd, pst))) :
    ∃ s₁ k, getNextStep (adjustCursors s) = some (s₁, some k) ∧
      ((k = StepKind.initDFA ∧ initializeDFA s₁ = some (s', (pd, pst))) ∨
       (k = StepKind.addTransition ∧
         addNextTransition s₁ s.state_index s.alphabet_index = some (s', (pd, pst))) ∨
       (k = StepKind.deleteState ∧
         deleteNextUnreachableState s₁ = some (s', (pd, pst))) ∨
       (k = StepKind.mergePair ∧
         mergeNextRedundantStates s₁ = some (s', (pd, pst)))) := by
  rw [stepForward] at h
  cases hg : getNextStep (adjustCursors s) with
  | none => rw [hg] at h; exact Option.noConfusion h
  | some pk =>
    obtain ⟨s₁, k⟩ := pk
    rw [hg] at h
    dsimp only at h
    cases k with
    | none => simp at h
    | some kk =>
      cases kk with
      | initDFA =>
        obtain ⟨⟨s₂, qd, qst⟩, hop, hmap⟩ := Option.map_eq_some'.mp h
        simp only [Prod.mk.injEq, Option.some.injEq] at hmap
        obtain ⟨rfl, rfl, rfl⟩ := hmap
        exact ⟨s₁, StepKind.initDFA, rfl, Or.inl ⟨rfl, hop⟩⟩
      | addTransition =>
        obtain ⟨⟨s₂, qd, qst⟩, hop, hmap⟩ := Option.map_eq_some'.mp h
        simp only [Prod.mk.injEq, Option.some.injEq] at hmap
        obtain ⟨rfl, rfl, rfl⟩ := hmap
        exact ⟨s₁, StepKind.addTransition, rfl, Or.inr (Or.inl ⟨rfl, hop⟩)⟩
      | deleteState =>
        obtain ⟨⟨s₂, qd, qst⟩, hop, hmap⟩ := Option.map_eq_some'.mp h
        simp only [Prod.mk.injEq, Option.some.injEq] at hmap
        obtain ⟨rfl, rfl, rfl⟩ := hmap
        exact ⟨s₁, StepKind.deleteState, rfl, Or.inr (Or.inr (Or.inl ⟨rfl, hop⟩))⟩
      | mergePair =>
        obtain ⟨⟨s₂, qd, qst⟩, hop, hmap⟩ := Option.map_eq_some'.mp h
        simp only [Prod.mk.injEq, Option.some.injEq] at hmap
        obtain ⟨rfl, rfl, rfl⟩ := hmap
        exact ⟨s₁, StepKind.mergePair, rfl, Or.inr (Or.inr (Or.inr ⟨rfl, hop⟩))⟩

/-- Shape of the session returned by `getNextStep` for each tag: the fill and
    initialize phases return the session unchanged, while the delete and
    merge phases return it with the consulted queues materialised — either
    the already-cached value or the queue freshly computed on the working
    DFA. -/
theorem getNextStep_shape2 {s s₁ : Session} {k : Option StepKind}
    (h : getNextStep s = some (s₁, k)) :
    (k = some StepKind.initDFA → s₁ = s ∧ s.dfa = none) ∧
    (k = some StepKind.addTransition → s₁ = s) ∧
    (k = some StepKind.deleteState →
      ∃ u, s₁ = { s with unreachableStates := some u } ∧
        (s.unreachableStates = some u ∨
         (s.unreachableStates = none ∧
          ∃ d, s.dfa = some d ∧ getUnreachableStates d [] = some u))) ∧
    (k = some StepKind.mergePair →
      ∃ r, s₁ = { s with unreachableStates := some [], redundantStates := some r } ∧
        (s.unreachableStates = some [] ∨
         (s.unreachableStates = none ∧
          ∃ d, s.dfa = some d ∧ getUnreachableStates d [] = some [])) ∧
        (s.redundantStates = some r ∨
         (s.redundantStates = none ∧
          ∃ d, s.dfa = some d ∧ getRedundantStates d [] = some r))) := by
  cases hd : s.dfa with
  | none =>
    rw [getNextStep, hd] at h
    obtain ⟨rfl, rfl⟩ := pair_inj2 h
    refine ⟨fun _ => ⟨rfl, rfl⟩, by simp, by simp, by simp⟩
  | some d =>
    rw [getNextStep, hd] at h
    dsimp only at h
    by_cases hsi : s.state_index < d.states.length
    · rw [if_pos hsi] at h
      obtain ⟨rfl, rfl⟩ := pair_inj2 h
      refine ⟨by simp, fun _ => rfl, by simp, by simp⟩
    · rw [if_neg hsi] at h
      cases hu : s.unreachableStates with
      | some u =>
        simp only [hu] at h
        by_cases hul : u.length > 0
        · rw [if_pos hul] at h
          obtain ⟨rfl, rfl⟩ := pair_inj2 h
          refine ⟨by simp, by simp, fun _ => ⟨u, ?_, Or.inl rfl⟩, by simp⟩
          rw [← hd, ← hu]
        · rw [if_neg hul] at h
          have hu0 : u = [] := by
            cases u with
            | nil => rfl
            | cons a t => simp at hul
          subst hu0
          cases hr : s.redundantStates with
          | some r =>
            simp only [hr] at h
            by_cases hrl : r.length > 0
            · rw [if_pos hrl] at h
              obtain ⟨rfl, rfl⟩ := pair_inj2 h
              refine ⟨by simp, by simp, by simp,
                fun _ => ⟨r, ?_, Or.inl rfl, Or.inl rfl⟩⟩
              rw [← hd, ← hu, ← hr]
            · rw [if_neg hrl] at h
              obtain ⟨rfl, rfl⟩ := pair_inj2 h
              exact ⟨by simp, by simp, by simp, by simp⟩
          | none =>
            simp only [hr] at h
            cases hgr : getRedundantStates d [] with
            | none =>
              rw [hgr] at h
              exact Option.noConfusion h
            | some r =>
              rw [hgr] at h
              dsimp only at h
              by_cases hrl : r.length > 0
              · rw [if_pos hrl] at h
                obtain ⟨rfl, rfl⟩ := pair_inj2 h
                refine ⟨by simp, by simp, by simp,
                  fun _ => ⟨r, ?_, Or.inl rfl, Or.inr ⟨rfl, d, rfl, hgr⟩⟩⟩
                rw [← hd, ← hu]
              · rw [if_neg hrl] at h
                obtain ⟨rfl, rfl⟩ := pair_inj2 h
                exact ⟨by simp, by simp, by simp, by simp⟩
      | none =>
        simp only [hu] at h
        cases hgu : getUnreachableStates d [] with
        | none =>
          rw [hgu] at h
          exact Option.noConfusion h
        | some u =>
          rw [hgu] at h
          dsimp only at h
          by_cases hul : u.length > 0
          · rw [if_pos hul] at h
            obtain ⟨rfl, rfl⟩ := pair_inj2 h
            refine ⟨by simp, by simp,
              fun _ => ⟨u, ?_, Or.inr ⟨rfl, d, rfl, hgu⟩⟩, by simp⟩
            rw [← hd]
          · rw [if_neg hul] at h
            have hu0 : u = [] := by
              cases u with
              | nil => rfl
              | cons a t => simp at hul
            subst hu0
            cases hr : s.redundantStates with
            | some r =>
              simp only [hr] at h
              by_cases hrl : r.length > 0
              · rw [if_pos hrl] at h
                obtain ⟨rfl, rfl⟩ := pair_inj2 h
                refine ⟨by simp, by simp, by simp,
                  fun _ => ⟨r, ?_, Or.inr ⟨rfl, d, rfl, hgu⟩, Or.inl rfl⟩⟩
                rw [← hd, ← hr]
              · rw [if_neg hrl] at h
                obtain ⟨rfl, rfl⟩ := pair_inj2 h
                exact ⟨by simp, by simp, by simp, by simp⟩
            | none =>
              simp only [hr] at h
              cases hgr : getRedundantStates d [] with
              | none =>
                rw [hgr] at h
                exact Option.noConfusion h
              | some r =>
                rw [hgr] at h
                dsimp only at h
                by_cases hrl : r.length > 0
                · rw [if_pos hrl] at h
                  obtain ⟨rfl, rfl⟩ := pair_inj2 h
                  refine ⟨by simp, by simp, by simp,
                    fun _ => ⟨r, ?_, Or.inr ⟨rfl, d, rfl, hgu⟩,
                      Or.inr ⟨rfl, d, rfl, hgr⟩⟩⟩
                  rw [← hd]
                · rw [if_neg hrl] at h
                  obtain ⟨rfl, rfl⟩ := pair_inj2 h
                  exact ⟨by simp, by simp, by simp, by simp⟩

/-- C1 (amended): the forward/backward round trip characterised exactly for
    every step kind and every presentation, the wrap boundary included.  The
    history log always returns to its pre-step value.  An `add_transition`
    step restores both cursors and both pending queues even when the forward
    step crossed the wrap boundary (the logged previous cursors are the
    pre-adjustment ones), and working comes back as the post-write snapshot
    rather than the pre-step automaton.  A `delete_state` or `merge_states`
    step restores working exactly but leaves the cursors as adjusted at the
    top of the forward call and leaves the consulted queue materialised with
    the processed element back at its head (for merges the unreachable queue
    is additionally left materialised as empty): this equals the pre-step
    session precisely when no wrap occurred and those queues were already
    cached, and differs at the first delete or merge of a conversion.  An
    `initialize` undo restores working to absent and additionally clears the
    history, the cursors and the unreachable queue (see C2 for the retained
    redundant queue). -/
theorem c1_roundtrip_amended :
    (∀ (s s' : Session) (pd : DFA),
       stepForward s = some (s', some (pd, Step.initDFA)) →
       s.dfa = none ∧
       stepBackward s' = some
         ({ s with dfa := none, steps := [], state_index := 0,
                   alphabet_index := 0, unreachableStates := none },
          some (pd, Step.initDFA))) ∧
    (∀ (s s' : Session) (pd : DFA) (f t sym : String) (psi pai : Nat),
       stepForward s = some (s', some (pd, Step.addTransition f t sym psi pai)) →
       psi = s.state_index ∧ pai = s.alphabet_index ∧
       stepBackward s' = some ({ s with dfa := some pd },
         some (pd, Step.addTransition f t sym psi pai))) ∧
    (∀ (s s' : Session) (pd : DFA) (x : String)
       (tr : Option (List (String × Option (List String)))),
       stepForward s = some (s', some (pd, Step.deleteState x tr)) →
       s.dfa = some pd ∧
       ∃ rest, (s.unreachableStates = some (x :: rest) ∨
           (s.unreachableStates = none ∧
            getUnreachableStates pd [] = some (x :: rest))) ∧
         stepBackward s' = some
           ({ adjustCursors s with unreachableStates := some (x :: rest) },
            some (pd, Step.deleteState x tr))) ∧
    (∀ (s s' : Session) (pd : DFA) (p : String × String),
       stepForward s = some (s', some (pd, Step.mergePair p)) →
       s.dfa = some pd ∧
       (s.unreachableStates = some [] ∨
         (s.unreachableStates = none ∧ getUnreachableStates pd [] = some [])) ∧
       ∃ rest, (s.redundantStates = some (p :: rest) ∨
           (s.redundantStates = none ∧
            getRedundantStates pd [] = some (p :: rest))) ∧
         stepBackward s' = some
           ({ adjustCursors s with unreachableStates := some [],
                                   redundantStates := some (p :: rest) },
            some (pd, Step.mergePair p))) := by
  refine ⟨?_, ?_, ?_, ?_⟩
  · intro s s' pd h
    obtain ⟨s₁, k, hg, hcase⟩ := stepForward_kinds h
    have hsh := getNextStep_shape2 hg
    rcases hcase with ⟨hk, hop⟩ | ⟨hk, hop⟩ | ⟨hk, hop⟩ | ⟨hk, hop⟩
    · subst hk
      obtain ⟨hs1, hdnone⟩ := hsh.1 rfl
      have hsd : s.dfa = none := by rw [← adjustCursors_dfa s]; exact hdnone
      rw [adjustCursors_none hsd] at hs1
      subst hs1
      obtain ⟨hshape, _⟩ := initializeDFA_shape hop
      subst hshape
      exact ⟨hsd, rfl⟩
    · obtain ⟨_, st, tgt, sy, habs⟩ := addNextTransition_shape hop
      simp at habs
    · obtain ⟨x, rest, dd, _, _, habs, _⟩ := deleteNext_shape hop
      simp at habs
    · obtain ⟨p, rest, dd, _, _, habs, _⟩ := mergeNext_shape hop
      simp at habs
  · intro s s' pd f t sym psi pai h
    obtain ⟨s₁, k, hg, hcase⟩ := stepForward_kinds h
    have hsh := getNextStep_shape2 hg
    rcases hcase with ⟨hk, hop⟩ | ⟨hk, hop⟩ | ⟨hk, hop⟩ | ⟨hk, hop⟩
    · obtain ⟨_, habs⟩ := initializeDFA_shape hop
      simp at habs
    · subst hk
      have hs1 : s₁ = adjustCursors s := hsh.2.1 rfl
      subst hs1
      obtain ⟨d, state, symbol, entry, hd1, hst, hsym, hps, hpa, hmono, hent,
        hpr2, hshape⟩ := addNextTransition_success hop
      have hpr2a : Step.addTransition f t sym psi pai
          = Step.addTransition state (String.intercalate "," entry) symbol
              s.state_index s.alphabet_index := hpr2
      obtain ⟨hf, ht, hsy, hpsi, hpai⟩ := Step.addTransition.injEq .. ▸ hpr2a
      subst hshape
      refine ⟨hpsi, hpai, ?_⟩
      rw [show ({ s with dfa := some pd } : Session)
          = Session.mk s.nfa (some pd) s.steps s.state_index s.alphabet_index
              s.unreachableStates s.redundantStates from rfl]
      rw [← adjustCursors_nfa s, ← adjustCursors_steps s,
          ← adjustCursors_unreachable s, ← adjustCursors_redundant s,
          hpsi, hpai]
      rfl
    · obtain ⟨x, rest, dd, _, _, habs, _⟩ := deleteNext_shape hop
      simp at habs
    · obtain ⟨p, rest, dd, _, _, habs, _⟩ := mergeNext_shape hop
      simp at habs
  · intro s s' pd x tr h
    obtain ⟨s₁, k, hg, hcase⟩ := stepForward_kinds h
    have hsh := getNextStep_shape2 hg
    rcases hcase with ⟨hk, hop⟩ | ⟨hk, hop⟩ | ⟨hk, hop⟩ | ⟨hk, hop⟩
    · obtain ⟨_, habs⟩ := initializeDFA_shape hop
      simp at habs
    · obtain ⟨_, st, tgt, sy, habs⟩ := addNextTransition_shape hop
      simp at habs
    · subst hk
      obtain ⟨x2, rest, dd, hu1, hd1, hpr, hshape⟩ := deleteNext_shape hop
      have hpr2 : (pd, Step.deleteState x tr)
          = (dd, Step.deleteState x2 (dd.transitions.lookup x2)) := hpr
      simp only [Prod.mk.injEq, Step.deleteState.injEq] at hpr2
      obtain ⟨rfl, rfl, rfl⟩ := hpr2
      obtain ⟨u, hs1, hdisj⟩ := hsh.2.2.1 rfl
      subst hs1
      have hu2 : some u = some (x :: rest) := hu1
      obtain rfl : u = x :: rest := Option.some.injEq .. ▸ hu2
      have hacd : (adjustCursors s).dfa = some pd := hd1
      have hsd : s.dfa = some pd := by rw [← adjustCursors_dfa s]; exact hacd
      subst hshape
      refine ⟨hsd, rest, ?_, ?_⟩
      · rw [adjustCursors_unreachable, adjustCursors_dfa] at hdisj
        rcases hdisj with h1 | ⟨h1, d2, hd2, hg2⟩
        · exact Or.inl h1
        · have he : some pd = some d2 := by rw [← hsd]; exact hd2
          obtain rfl : pd = d2 := Option.some.injEq .. ▸ he
          exact Or.inr ⟨h1, hg2⟩
      · rw [show ({ adjustCursors s with
                      unreachableStates := some (x :: rest) } : Session)
            = Session.mk (adjustCursors s).nfa (some pd)
                (adjustCursors s).steps (adjustCursors s).state_index
                (adjustCursors s).alphabet_index (some (x :: rest))
                (adjustCursors s).redundantStates from by rw [← hacd]]
        rfl
    · obtain ⟨p, rest, dd, _, _, habs, _⟩ := mergeNext_shape hop
      simp at habs
  · intro s s' pd p h
    obtain ⟨s₁, k, hg, hcase⟩ := stepForward_kinds h
    have hsh := getNextStep_shape2 hg
    rcases hcase with ⟨hk, hop⟩ | ⟨hk, hop⟩ | ⟨hk, hop⟩ | ⟨hk, hop⟩
    · obtain ⟨_, habs⟩ := initializeDFA_shape hop
      simp at habs
    · obtain ⟨_, st, tgt, sy, habs⟩ := addNextTransition_shape hop
      simp at habs
    · obtain ⟨x, rest, dd, _, _, habs, _⟩ := deleteNext_shape hop
      simp at habs
    · subst hk
      obtain ⟨p2, rest, dd, hr1, hd1, hpr, hshape⟩ := mergeNext_shape hop
      have hpr2 : (pd, Step.mergePair p) = (dd, Step.mergePair p2) := hpr
      simp only [Prod.mk.injEq, Step.mergePair.injEq] at hpr2
      obtain ⟨rfl, rfl⟩ := hpr2
      obtain ⟨r, hs1, hdisjU, hdisjR⟩ := hsh.2.2.2 rfl
      subst hs1
      have hr2 : some r = some (p :: rest) := hr1
      obtain rfl : r = p :: rest := Option.some.injEq .. ▸ hr2
      have hacd : (adjustCursors s).dfa = some pd := hd1
      have hsd : s.dfa = some pd := by rw [← adjustCursors_dfa s]; exact hacd
      subst hshape
      refine ⟨hsd, ?_, rest, ?_, ?_⟩
      · rw [adjustCursors_unreachable, adjustCursors_dfa] at hdisjU
        rcases hdisjU with h1 | ⟨h1, d2, hd2, hg2⟩
        · exact Or.inl h1
        · have he : some pd = some d2 := by rw [← hsd]; exact hd2
          obtain rfl : pd = d2 := Option.some.injEq .. ▸ he
          exact Or.inr ⟨h1, hg2⟩
      · rw [adjustCursors_redundant, adjustCursors_dfa] at hdisjR
        rcases hdisjR with h1 | ⟨h1, d2, hd2, hg2⟩
        · exact Or.inl h1
        · have he : some pd = some d2 := by rw [← hsd]; exact hd2
          obtain rfl : pd = d2 := Option.some.injEq .. ▸ he
          exact Or.inr ⟨h1, hg2⟩
      · rw [show ({ adjustCursors s with
                      unreachableStates := some [],
                      redundantStates := some (p :: rest) } : Session)
            = Session.mk (adjustCursors s).nfa (some pd)
                (adjustCursors s).steps (adjustCursors s).state_index
                (adjustCursors s).alphabet_index (some [])
                (some (p :: rest)) from by rw [← hacd]]
        rfl

/-- The session nine forward steps into the `nfa1` conversion: transitions
    filled, cursors at the wrap boundary `(3, 2)`, neither queue computed. -/
def sess9 : Session := (iterForward 9 (initialSession nfa1)).getD (initialSession nfa1)

/-- The session after the tenth forward step of the `nfa1` conversion: the
    first `delete_state` step, taken from the wrap-boundary presentation. -/
def sess10 : Session := ((stepForward sess9).map Prod.fst).getD sess9

/-- Witness for C1's amended theorem at the first delete step of the `nfa1`
    conversion — the wrap-boundary presentation: the forward step wraps the
    cursors from `(3, 2)` to `(4, 0)` and materialises the unreachable queue,
    and the round trip restores working and history while keeping the
    adjusted cursors and the freshly computed queue with `"Ø"` back at its
    head. -/
theorem c1_roundtrip_amended_witness :
    (stepForward sess9 = some (sess10,
       some (dfaFilled1, Step.deleteState "Ø" (dfaFilled1.transitions.lookup "Ø"))) ∧
     sess9.state_index = 3 ∧ sess9.alphabet_index = 2 ∧
     sess9.unreachableStates = none ∧
     (adjustCursors sess9).state_index = 4 ∧
     (adjustCursors sess9).alphabet_index = 0) ∧
    (sess9.dfa = some dfaFilled1 ∧
     ∃ rest, (sess9.unreachableStates = some ("Ø" :: rest) ∨
        (sess9.unreachableStates = none ∧
         getUnreachableStates dfaFilled1 [] = some ("Ø" :: rest))) ∧
       stepBackward sess10 = some
         ({ adjustCursors sess9 with unreachableStates := some ("Ø" :: rest) },
          some (dfaFilled1, Step.deleteState "Ø" (dfaFilled1.transitions.lookup "Ø")))) :=
  ⟨⟨by decide, by decide, by decide, by decide, by decide, by decide⟩,
   c1_roundtrip_amended.2.2.1 sess9 sess10 dfaFilled1 "Ø"
     (dfaFilled1.transitions.lookup "Ø") (by decide)⟩

end Claim1Revised

end NFAConv
